import Mathlib

/-!
Verification of the custom separate-chaining hashmap and the cache-aside /
write-through attachment service built on top of it.

The definitions below are a shallow embedding of the TypeScript sources:

* `src/modules/hashmap/custom-hashmap.ts` (class `CustomHashmap`),
* the hash utilities (class `HashUtils`) and `HASHMAP_CONSTANTS`,
* `src/modules/attachments/attachments.service.ts` (class `AttachmentsService`,
  methods `getByPath` and `registerFile`).

Modelling conventions:

* JavaScript keys are modelled by the inductive type `JSKey`, one constructor
  per `typeof` category that `HashUtils.defaultHash` dispatches on, plus
  `JSKey.undef` for the `undefined` sentinel rejected by `validateKey`.
  Numeric keys are modelled as integers (floating-point keys are out of the
  embedding's scope); string keys are modelled as Lean strings, with
  `Char.toNat` standing in for `charCodeAt` (faithful for Basic Multilingual
  Plane code points).  An `other`-category key carries the result of
  `JSON.stringify` (`some s`, or `none` when serialization throws) together
  with its `String(key)` fallback text; two syntactically equal `other` terms
  denote the same object reference.
* 32-bit JavaScript integer arithmetic (`| 0`, `>>> 0`, `>>> 16`, `^`) is
  made explicit with `toUint32` / `toInt32` (`%`/conditional subtraction on
  `Int`/`Nat`), never via fixed-width machine types.
* The linked bucket chains (`HashmapNode`) become `List (JSKey × V)` with the
  chain head first; the bucket array becomes `List (List (JSKey × V))`.
* `throw` is modelled by `Option`/`Except` results: `CustomHashmap.set`
  returns `none` exactly when `validateKey` throws, and the service-layer
  operations return `Option`/`Except` for `NotFoundException` / persistence
  failures.
* The JS division in the load-factor check is modelled over `ℚ`; on the
  integer sizes and the default load factor `0.75` this coincides with the
  JS double computation.
-/

set_option maxRecDepth 4096

/-- Runtime categories of JavaScript keys, as dispatched on by
`HashUtils.defaultHash` (`typeof key`), plus the `undefined` sentinel. -/
inductive JSKey where
  | undef : JSKey
  | num (n : Int) : JSKey
  | str (s : String) : JSKey
  | bool (b : Bool) : JSKey
  | other (json : Option String) (fallback : String) : JSKey
deriving DecidableEq, Repr

/- `HASHMAP_CONSTANTS` from `types.ts`. -/
namespace HASHMAP_CONSTANTS

def DEFAULT_CAPACITY : Nat := 16
def DEFAULT_LOAD_FACTOR : ℚ := 3 / 4
def RESIZE_MULTIPLIER : Nat := 2
def MIN_CAPACITY : Nat := 1
def HASH_PRIME : Int := 5381
def HASH_MULTIPLIER : Int := 33
def BOOLEAN_TRUE_HASH : Nat := 1231
def BOOLEAN_FALSE_HASH : Nat := 1237

end HASHMAP_CONSTANTS

namespace HashUtils

/-- JS `x >>> 0`: the 32-bit pattern of an integer, as a natural number. -/
def toUint32 (n : Int) : Nat := (n % (2 ^ 32 : Int)).toNat

/-- JS `x | 0`: conversion to a signed 32-bit integer. -/
def toInt32 (n : Int) : Int :=
  if toUint32 n < 2 ^ 31 then (toUint32 n : Int) else (toUint32 n : Int) - 2 ^ 32

/-- Model of `HashUtils.hashNumber`:
`const n = num | 0; return (n ^ (n >>> 16)) >>> 0`.
Both `^` and `>>>` act on the 32-bit pattern `toUint32 num` of `n`, so the
result is the XOR of that pattern with its 16-bit right shift. -/
def hashNumber (num : Int) : Nat :=
  let u := toUint32 num
  u ^^^ (u >>> 16)

/-- Model of `HashUtils.hashString`: rolling hash with seed `HASH_PRIME = 5381`;
per character `hash = (hash * HASH_MULTIPLIER + charCode) | 0`
(multiplier 33, truncated to 32 bits each step), final `hash >>> 0`. -/
def hashString (s : String) : Nat :=
  toUint32 (s.data.foldl
    (fun h c => toInt32 (h * HASHMAP_CONSTANTS.HASH_MULTIPLIER + (c.toNat : Int)))
    HASHMAP_CONSTANTS.HASH_PRIME)

/-- Model of `HashUtils.hashBoolean`. -/
def hashBoolean (b : Bool) : Nat :=
  if b then HASHMAP_CONSTANTS.BOOLEAN_TRUE_HASH else HASHMAP_CONSTANTS.BOOLEAN_FALSE_HASH

/-- Model of `HashUtils.hashObject`: `hashString(JSON.stringify(key))`, falling back to
`hashString(String(key))` when serialization throws. -/
def hashObject (json : Option String) (fallback : String) : Nat :=
  match json with
  | some j => hashString j
  | none => hashString fallback

/-- Model of `HashUtils.defaultHash`, dispatching on `typeof key`.  For the `undefined`
key the `default` branch runs: `JSON.stringify(undefined)` yields `undefined`,
`hashString(undefined)` throws inside the `try`, and the `catch` hashes
`String(undefined) = "undefined"`. -/
def defaultHash : JSKey → Nat
  | .undef => hashString "undefined"
  | .num n => hashNumber n
  | .str s => hashString s
  | .bool b => hashBoolean b
  | .other json fallback => hashObject json fallback

/-- Model of `HashUtils.getBucketIndex`:
`hash = hashFunction ? Math.abs(hashFunction(key) | 0) : defaultHash(key);
return hash % capacity`. -/
def getBucketIndex (key : JSKey) (capacity : Nat) (hashFunction : Option (JSKey → Int)) : Nat :=
  match hashFunction with
  | some hf => (toInt32 (hf key)).natAbs % capacity
  | none => defaultHash key % capacity

end HashUtils

/-- The state of a `CustomHashmap<K, V>` instance with `K` the JS keys.  Each
bucket holds its `HashmapNode` chain head-first; the configuration fields
(`loadFactor`, `hashFunction`, `equalsFunction`) are the constructor-stored
ones. -/
structure CustomHashmap (V : Type) where
  buckets : List (List (JSKey × V))
  _size : Nat
  capacity : Nat
  loadFactor : ℚ
  hashFunction : Option (JSKey → Int)
  equalsFunction : JSKey → JSKey → Bool

/-- Recognized constructor options (`HashmapOptions`). -/
structure HashmapOptions where
  initialCapacity : Option Nat := none
  loadFactor : Option ℚ := none
  hashFunction : Option (JSKey → Int) := none
  equalsFunction : Option (JSKey → JSKey → Bool) := none

/-- JS strict equality `a === b` restricted to our key model; the default
`equalsFunction`.  Two syntactically equal `other` terms denote the same
object reference, so structural equality models `===` on every constructor. -/
def jsStrictEq (a b : JSKey) : Bool := decide (a = b)

namespace CustomHashmap

variable {V : Type}

/-- The `CustomHashmap` constructor. -/
def make (opts : HashmapOptions) : CustomHashmap V :=
  let capacity := max HASHMAP_CONSTANTS.MIN_CAPACITY
    (opts.initialCapacity.getD HASHMAP_CONSTANTS.DEFAULT_CAPACITY)
  { buckets := List.replicate capacity []
    _size := 0
    capacity := capacity
    loadFactor := opts.loadFactor.getD HASHMAP_CONSTANTS.DEFAULT_LOAD_FACTOR
    hashFunction := opts.hashFunction
    equalsFunction := opts.equalsFunction.getD jsStrictEq }

/-- Model of `this.getBucketIndex(key)`. -/
def bucketIndex (st : CustomHashmap V) (key : JSKey) : Nat :=
  HashUtils.getBucketIndex key st.capacity st.hashFunction

/-- Model of `findNodeInBucket`: first node of the chain whose key satisfies
`equalsFunction(node.key, key)`. -/
def findNodeInBucket (st : CustomHashmap V) (bucketIdx : Nat) (key : JSKey) :
    Option (JSKey × V) :=
  (st.buckets.getD bucketIdx []).find? (fun p => st.equalsFunction p.1 key)

/-- Model of `findNode`. -/
def findNode (st : CustomHashmap V) (key : JSKey) : Option (JSKey × V) :=
  st.findNodeInBucket (st.bucketIndex key) key

/-- Model of `get(key)`. -/
def get (st : CustomHashmap V) (key : JSKey) : Option V :=
  (st.findNode key).map Prod.snd

/-- Model of `has(key)`. -/
def has (st : CustomHashmap V) (key : JSKey) : Bool :=
  st.findNode key |>.isSome

/-- The in-place `existingNode.value = value` of `set`: replace the value of
the first chain node whose stored key satisfies `equalsFunction(node.key, key)`
(the stored key itself is not replaced). -/
def setChainValue (eqf : JSKey → JSKey → Bool) (key : JSKey) (value : V) :
    List (JSKey × V) → List (JSKey × V)
  | [] => []
  | p :: rest =>
    if eqf p.1 key then (p.1, value) :: rest
    else p :: setChainValue eqf key value rest

/-- Model of `insertNewNode`: prepend a node at the bucket head and increment `_size`. -/
def insertNewNode (st : CustomHashmap V) (bucketIdx : Nat) (key : JSKey) (value : V) :
    CustomHashmap V :=
  { st with
    buckets := st.buckets.set bucketIdx ((key, value) :: st.buckets.getD bucketIdx [])
    _size := st._size + 1 }

/-- Model of `insertNodeWithoutResize`. -/
def insertNodeWithoutResize (st : CustomHashmap V) (key : JSKey) (value : V) :
    CustomHashmap V :=
  st.insertNewNode (st.bucketIndex key) key value

/-- Model of `rehashAllNodes`: re-insert every node of the old buckets, walking buckets
in index order and each chain head-first. -/
def rehashAllNodes (st : CustomHashmap V) (oldBuckets : List (List (JSKey × V))) :
    CustomHashmap V :=
  oldBuckets.foldl
    (fun s chain => chain.foldl (fun s2 p => s2.insertNodeWithoutResize p.1 p.2) s) st

/-- Model of `resize(newCapacity)`: fresh buckets of size
`Math.max(MIN_CAPACITY, Math.floor(newCapacity))` (`Math.floor` is the
identity on the natural number `capacity * RESIZE_MULTIPLIER` passed at the
only call site), `_size` reset, then rehash of all old nodes. -/
def resize (st : CustomHashmap V) (newCapacity : Nat) : CustomHashmap V :=
  let cap := max HASHMAP_CONSTANTS.MIN_CAPACITY newCapacity
  rehashAllNodes
    { st with capacity := cap, buckets := List.replicate cap [], _size := 0 }
    st.buckets

/-- Model of `resizeIfNeeded`: grow when `this._size / this.capacity > this.loadFactor`. -/
def resizeIfNeeded (st : CustomHashmap V) : CustomHashmap V :=
  if (st._size : ℚ) / (st.capacity : ℚ) > st.loadFactor then
    st.resize (st.capacity * HASHMAP_CONSTANTS.RESIZE_MULTIPLIER)
  else st

/-- Model of `set(key, value)`; `none` models the `validateKey` throw
(`Key cannot be undefined`), which happens before any mutation. -/
def set (st : CustomHashmap V) (key : JSKey) (value : V) : Option (CustomHashmap V) :=
  if key = JSKey.undef then none
  else
    let bucketIdx := st.bucketIndex key
    match st.findNodeInBucket bucketIdx key with
    | some _ =>
        let newChain := setChainValue st.equalsFunction key value (st.buckets.getD bucketIdx [])
        some { st with buckets := st.buckets.set bucketIdx newChain }
    | none => some (st.insertNewNode bucketIdx key value).resizeIfNeeded

/-- Model of `deleteFromBucket`'s chain scan: `some` of the chain with the first
matching node unlinked, or `none` when no node matches. -/
def deleteFromChain (eqf : JSKey → JSKey → Bool) (key : JSKey) :
    List (JSKey × V) → Option (List (JSKey × V))
  | [] => none
  | p :: rest =>
    if eqf p.1 key then some rest
    else (deleteFromChain eqf key rest).map (p :: ·)

/-- Model of `delete(key)`: result flag together with the new state. -/
def delete (st : CustomHashmap V) (key : JSKey) : Bool × CustomHashmap V :=
  let bucketIdx := st.bucketIndex key
  match deleteFromChain st.equalsFunction key (st.buckets.getD bucketIdx []) with
  | some newChain =>
      (true, { st with buckets := st.buckets.set bucketIdx newChain, _size := st._size - 1 })
  | none => (false, st)

/-- Model of `clear()`. -/
def clear (st : CustomHashmap V) : CustomHashmap V :=
  { st with buckets := List.replicate st.capacity [], _size := 0 }

/-- Model of `forEachNode`'s traversal, as a fold: buckets in index order, each chain
head-first. -/
def forEachNodeFold {α : Type} (st : CustomHashmap V) (f : α → (JSKey × V) → α)
    (init : α) : α :=
  st.buckets.foldl (fun a chain => chain.foldl f a) init

/-- Model of `keys()`. -/
def keys (st : CustomHashmap V) : List JSKey :=
  st.forEachNodeFold (fun a p => a ++ [p.1]) []

/-- Model of `values()`. -/
def values (st : CustomHashmap V) : List V :=
  st.forEachNodeFold (fun a p => a ++ [p.2]) []

/-- Model of `entries()`. -/
def entries (st : CustomHashmap V) : List (JSKey × V) :=
  st.forEachNodeFold (fun a p => a ++ [(p.1, p.2)]) []

/-- The sequence of `(value, key)` arguments `forEach(callback)` passes to its
callback, in visit order. -/
def forEachSeq (st : CustomHashmap V) : List (V × JSKey) :=
  st.forEachNodeFold (fun a p => a ++ [(p.2, p.1)]) []

end CustomHashmap

namespace CustomHashmap

variable {V : Type}

/-- The non-negative hash value from which `HashUtils.getBucketIndex` derives
the bucket index (already reduced `| 0` / `Math.abs` for a custom function). -/
def rawHash (hf : Option (JSKey → Int)) (k : JSKey) : Nat :=
  match hf with
  | some f => (HashUtils.toInt32 (f k)).natAbs
  | none => HashUtils.defaultHash k

/-- All live entries, walking buckets in index order and chains head-first. -/
def entriesList (st : CustomHashmap V) : List (JSKey × V) :=
  st.buckets.flatten

/-- Mutual non-equivalence of two keys under the configured equality function
(symmetric by construction). -/
def keyUneq (eqf : JSKey → JSKey → Bool) (a b : JSKey) : Prop :=
  eqf a b = false ∧ eqf b a = false

/-- Well-formedness invariant of a table state: the bucket array has
`capacity` slots, `capacity ≥ 1`, `_size` counts the live entries, every
entry sits in the bucket its key hashes to, and no two live entries have
keys related by the equality function. -/
structure WF (st : CustomHashmap V) : Prop where
  buckets_length : st.buckets.length = st.capacity
  capacity_pos : 0 < st.capacity
  size_eq : st._size = st.entriesList.length
  hashed : ∀ i, ∀ h : i < st.buckets.length, ∀ p ∈ st.buckets[i],
    rawHash st.hashFunction p.1 % st.capacity = i
  uniq : List.Pairwise (keyUneq st.equalsFunction) (st.entriesList.map Prod.fst)

/-- The caller-side contract on a hash/equality configuration (the spec makes
malformed custom functions the caller's responsibility): the equality is an
equivalence and equal keys hash alike.  The default configuration satisfies
it. -/
structure LawfulCfg (eqf : JSKey → JSKey → Bool) (hf : Option (JSKey → Int)) : Prop where
  refl : ∀ a, eqf a a = true
  symm : ∀ a b, eqf a b = eqf b a
  trans : ∀ a b c, eqf a b = true → eqf b c = true → eqf a c = true
  compat : ∀ a b, eqf a b = true → rawHash hf a = rawHash hf b

/-- The lawfulness contract instantiated at a table's stored configuration. -/
def Lawful (st : CustomHashmap V) : Prop :=
  LawfulCfg st.equalsFunction st.hashFunction

/-- An entry matching the looked-up key. -/
def Matches (st : CustomHashmap V) (k : JSKey) (p : JSKey × V) : Prop :=
  p ∈ st.entriesList ∧ st.equalsFunction p.1 k = true

/-- The intermediate state of `resize` right after `this.buckets = new
Array(this.capacity).fill(null)` and `this._size = 0`, before rehashing. -/
def resizeBase (st : CustomHashmap V) (cap : Nat) : CustomHashmap V :=
  { st with capacity := cap, buckets := List.replicate cap [], _size := 0 }

/-- The state produced by the overwrite branch of `set` (the first matching
node's value is replaced in place). -/
def overwriteState (st : CustomHashmap V) (k : JSKey) (v : V) : CustomHashmap V :=
  let bucketIdx := st.bucketIndex k
  let newChain := setChainValue st.equalsFunction k v (st.buckets.getD bucketIdx [])
  { st with buckets := st.buckets.set bucketIdx newChain }

/-- The state produced by a successful `deleteFromBucket`: the bucket's chain
replaced by the chain with the first match unlinked, `_size` decremented. -/
def deleteState (st : CustomHashmap V) (k : JSKey) (c' : List (JSKey × V)) :
    CustomHashmap V :=
  { st with buckets := st.buckets.set (st.bucketIndex k) c', _size := st._size - 1 }

/-- The public `size` getter. -/
def size (st : CustomHashmap V) : Nat := st._size

/-- A state-mutating operation on the table (`get`, `has` and the iteration
methods do not change state). -/
inductive Op (V : Type) where
  | set (k : JSKey) (v : V) : Op V
  | delete (k : JSKey) : Op V
  | clear : Op V

/-- Apply one operation.  A `set` whose `validateKey` throws leaves the state
unchanged: the throw happens before any mutation. -/
def applyOp (st : CustomHashmap V) : Op V → CustomHashmap V
  | .set k v => (st.set k v).getD st
  | .delete k => (st.delete k).2
  | .clear => st.clear

def applyOps (st : CustomHashmap V) (ops : List (Op V)) : CustomHashmap V :=
  ops.foldl applyOp st

/-- An operation that neither writes nor deletes the observed key (per the
configured equality function) nor clears the table. -/
def NotTouching (eqf : JSKey → JSKey → Bool) (k : JSKey) : Op V → Prop
  | .set k2 _ => eqf k2 k = false
  | .delete k2 => eqf k2 k = false
  | .clear => False

end CustomHashmap

namespace AttachmentsService

open CustomHashmap

/-- The durable-store interface consumed by `getByPath` / `registerFile`
(`AttachmentsRepository.findByPath` and `.create`), with `create` allowed to
fail (`PersistenceError` passthrough). -/
structure RecordStore (Ent Err Input : Type) where
  findByPath : String → Option Ent
  create : Input → Except Err Ent

/-- Model of `AttachmentsService.getByPath`, with the projection
`proj = domainToResponse ∘ entityToDomain` abstract.  The result triple is
(returned value — `none` models the `NotFoundException` throw —, the table
afterwards, the number of durable-store reads performed).  Cached values are
response objects, always truthy, so the JS truthiness test on `fromCache` is
`Option` matching.  The `set` key is a string, so `set` cannot throw. -/
def getByPath {Ent Err Input V : Type} (store : RecordStore Ent Err Input)
    (proj : Ent → V) (st : CustomHashmap V) (pathKey : String) :
    Option V × CustomHashmap V × Nat :=
  match st.get (.str pathKey) with
  | some v => (some v, st, 0)
  | none =>
    match store.findByPath pathKey with
    | none => (none, st, 1)
    | some ent =>
        (some (proj ent), (st.set (.str pathKey) (proj ent)).getD st, 1)

/-- Model of `AttachmentsService.registerFile`: persist via `create` first; on failure
the table is untouched and the error propagates; on success the projected
response is inserted keyed by its canonical path (`resp.path`, read off by
`pathOf`) and returned. -/
def registerFile {Ent Err Input V : Type} (store : RecordStore Ent Err Input)
    (proj : Ent → V) (pathOf : V → String) (st : CustomHashmap V) (file : Input) :
    Except Err V × CustomHashmap V :=
  match store.create file with
  | .error e => (.error e, st)
  | .ok saved =>
      (.ok (proj saved), (st.set (.str (pathOf (proj saved))) (proj saved)).getD st)

end AttachmentsService

/-- Spec-side description of the numeric hash (claim C8): "(n XOR (n >>> 16))
masked non-negative over 32 bits", on the 32-bit pattern of the key. -/
def specHashNumber (num : Int) : Nat :=
  (Nat.xor (HashUtils.toUint32 num) (HashUtils.toUint32 num >>> 16)) % 2 ^ 32

/-- Spec-side description of the string hash (claim C8): "rolling hash with
seed 5381 and multiplier 33, one iteration per character, truncated to 32
bits and masked non-negative". -/
def specHashString (s : String) : Nat :=
  HashUtils.toUint32
    (s.data.foldl (fun h c => HashUtils.toInt32 (h * 33 + (c.toNat : Int))) 5381)

instance (eqf : JSKey → JSKey → Bool) (a b : JSKey) :
    Decidable (CustomHashmap.keyUneq eqf a b) :=
  inferInstanceAs (Decidable (_ ∧ _))

/-- A small concrete well-formed table used to instantiate the claims:
capacity 2, default equality, default hashing, one entry under key `"a"`
(whose default hash is even, so it lives in bucket 0). -/
def sampleTable : CustomHashmap Nat :=
  { buckets := [[(.str "a", 1)], []]
    _size := 1
    capacity := 2
    loadFactor := 3 / 4
    hashFunction := none
    equalsFunction := jsStrictEq }

/-- A concrete stub store for the service-layer witnesses: one record (the
number 42) durably stored at path `"uploads/x.txt"`; `create` always
succeeds with that record. -/
def sampleStore : AttachmentsService.RecordStore Nat Unit Unit :=
  { findByPath := fun s => if s = "uploads/x.txt" then some 42 else none
    create := fun _ => .ok 42 }


namespace CustomHashmap

variable {V : Type}

theorem getBucketIndex_eq_rawHash (k : JSKey) (cap : Nat) (hf : Option (JSKey → Int)) :
    HashUtils.getBucketIndex k cap hf = rawHash hf k % cap := by
  cases hf <;> rfl

theorem bucketIndex_eq (st : CustomHashmap V) (k : JSKey) :
    st.bucketIndex k = rawHash st.hashFunction k % st.capacity :=
  getBucketIndex_eq_rawHash ..

theorem bucketIndex_lt (st : CustomHashmap V) (k : JSKey) (h : 0 < st.capacity) :
    st.bucketIndex k < st.capacity := by
  rw [bucketIndex_eq]; exact Nat.mod_lt _ h

theorem keyUneq_symmetric (eqf : JSKey → JSKey → Bool) : Symmetric (keyUneq eqf) :=
  fun _ _ h => ⟨h.2, h.1⟩

theorem lawfulCfg_jsStrictEq (hf : Option (JSKey → Int)) : LawfulCfg jsStrictEq hf where
  refl a := by simp [jsStrictEq]
  symm a b := decide_eq_decide.mpr ⟨fun h => h.symm, fun h => h.symm⟩
  trans a b c hab hbc := by
    simp only [jsStrictEq, decide_eq_true_eq] at *
    exact hab.trans hbc
  compat a b hab := by
    simp only [jsStrictEq, decide_eq_true_eq] at hab
    rw [hab]

theorem getD_eq_getElem {α : Type} (l : List α) (i : Nat) (d : α) (h : i < l.length) :
    l.getD i d = l[i] := by
  rw [List.getD_eq_getElem?_getD, List.getElem?_eq_getElem h]; rfl

theorem mem_entriesList_iff (st : CustomHashmap V) (p : JSKey × V) :
    p ∈ st.entriesList ↔ ∃ i, ∃ h : i < st.buckets.length, p ∈ st.buckets[i] := by
  unfold entriesList
  rw [List.mem_flatten]
  constructor
  · rintro ⟨l, hl, hp⟩
    obtain ⟨i, hi, rfl⟩ := List.mem_iff_getElem.mp hl
    exact ⟨i, hi, hp⟩
  · rintro ⟨i, hi, hp⟩
    exact ⟨st.buckets[i], List.getElem_mem hi, hp⟩

theorem mem_entriesList_of_mem_bucket (st : CustomHashmap V) {p : JSKey × V} {i : Nat}
    (hi : i < st.buckets.length) (hp : p ∈ st.buckets.getD i []) : p ∈ st.entriesList := by
  rw [getD_eq_getElem _ _ _ hi] at hp
  exact (mem_entriesList_iff st p).mpr ⟨i, hi, hp⟩

/-- Under the invariant and a lawful configuration, a matching entry can only
live in the looked-up key's bucket. -/
theorem match_in_bucket (st : CustomHashmap V) (hW : WF st) (hL : Lawful st)
    {p : JSKey × V} {k : JSKey} (hp : p ∈ st.entriesList)
    (hm : st.equalsFunction p.1 k = true) :
    p ∈ st.buckets.getD (st.bucketIndex k) [] := by
  obtain ⟨i, hi, hpi⟩ := (mem_entriesList_iff st p).mp hp
  have hhash := hW.hashed i hi p hpi
  have hcomp := hL.compat p.1 k hm
  have : st.bucketIndex k = i := by
    rw [bucketIndex_eq, ← hcomp, hhash]
  rw [this, getD_eq_getElem _ _ _ hi]
  exact hpi

theorem keys_nodup (st : CustomHashmap V) (hW : WF st) (hL : Lawful st) :
    (st.entriesList.map Prod.fst).Nodup := by
  refine hW.uniq.imp ?_
  intro a b hab
  intro hEq
  subst hEq
  have := hL.refl a
  rw [hab.1] at this
  exact Bool.false_ne_true this

/-- Under the invariant, at most one live entry matches a given key. -/
theorem matches_unique (st : CustomHashmap V) (hW : WF st) (hL : Lawful st)
    {k : JSKey} {p q : JSKey × V} (hp : Matches st k p) (hq : Matches st k q) : p = q := by
  by_cases hfst : p.1 = q.1
  · exact List.inj_on_of_nodup_map (keys_nodup st hW hL) hp.1 hq.1 hfst
  · exfalso
    have huneq := (hW.uniq.forall (keyUneq_symmetric _))
      (List.mem_map_of_mem Prod.fst hp.1) (List.mem_map_of_mem Prod.fst hq.1) hfst
    have : st.equalsFunction p.1 q.1 = true := by
      have h1 : st.equalsFunction k q.1 = true := by rw [hL.symm]; exact hq.2
      exact hL.trans p.1 k q.1 hp.2 h1
    rw [huneq.1] at this
    exact Bool.false_ne_true this

theorem findNode_eq_some_iff (st : CustomHashmap V) (hW : WF st) (hL : Lawful st)
    (k : JSKey) (p : JSKey × V) :
    st.findNode k = some p ↔ Matches st k p := by
  constructor
  · intro h
    unfold findNode findNodeInBucket at h
    have hpred := List.find?_some h
    refine ⟨mem_entriesList_of_mem_bucket st ?_ (List.mem_of_find?_eq_some h), hpred⟩
    rw [hW.buckets_length]
    exact bucketIndex_lt st k hW.capacity_pos
  · intro hp
    have hchain := match_in_bucket st hW hL hp.1 hp.2
    have hsome : (st.findNode k).isSome := by
      unfold findNode findNodeInBucket
      exact List.find?_isSome.mpr ⟨p, hchain, hp.2⟩
    obtain ⟨q, hq⟩ := Option.isSome_iff_exists.mp hsome
    have hqm : Matches st k q := by
      unfold findNode findNodeInBucket at hq
      have hqpred := List.find?_some hq
      refine ⟨mem_entriesList_of_mem_bucket st ?_ (List.mem_of_find?_eq_some hq), hqpred⟩
      rw [hW.buckets_length]
      exact bucketIndex_lt st k hW.capacity_pos
    rw [hq, matches_unique st hW hL hqm hp]

theorem findNode_eq_none_iff (st : CustomHashmap V) (hW : WF st) (hL : Lawful st)
    (k : JSKey) :
    st.findNode k = none ↔ ∀ p ∈ st.entriesList, st.equalsFunction p.1 k = false := by
  constructor
  · intro h p hp
    by_contra hne
    have hm : st.equalsFunction p.1 k = true := by
      cases hEq : st.equalsFunction p.1 k
      · exact absurd hEq hne
      · rfl
    have := (findNode_eq_some_iff st hW hL k p).mpr ⟨hp, hm⟩
    rw [h] at this
    exact Option.noConfusion this
  · intro h
    cases hF : st.findNode k with
    | none => rfl
    | some p =>
      have hp := (findNode_eq_some_iff st hW hL k p).mp hF
      have hm := hp.2
      rw [h p hp.1] at hm
      exact absurd hm (by simp)

theorem get_eq_some_iff (st : CustomHashmap V) (hW : WF st) (hL : Lawful st)
    (k : JSKey) (v : V) :
    st.get k = some v ↔ ∃ k', Matches st k (k', v) := by
  unfold get
  constructor
  · intro h
    obtain ⟨⟨k', v'⟩, hp, hpv⟩ := Option.map_eq_some'.mp h
    dsimp at hpv
    subst hpv
    exact ⟨k', (findNode_eq_some_iff st hW hL k _).mp hp⟩
  · rintro ⟨k', hm⟩
    rw [(findNode_eq_some_iff st hW hL k (k', v)).mpr hm]
    rfl

theorem get_eq_none_iff (st : CustomHashmap V) (hW : WF st) (hL : Lawful st) (k : JSKey) :
    st.get k = none ↔ ∀ p ∈ st.entriesList, st.equalsFunction p.1 k = false := by
  unfold get
  rw [Option.map_eq_none']
  exact findNode_eq_none_iff st hW hL k

theorem has_iff (st : CustomHashmap V) (hW : WF st) (hL : Lawful st) (k : JSKey) :
    st.has k = true ↔ ∃ p ∈ st.entriesList, st.equalsFunction p.1 k = true := by
  unfold has
  rw [Option.isSome_iff_exists]
  constructor
  · rintro ⟨p, hp⟩
    have := (findNode_eq_some_iff st hW hL k p).mp hp
    exact ⟨p, this.1, this.2⟩
  · rintro ⟨p, hp, hm⟩
    exact ⟨p, (findNode_eq_some_iff st hW hL k p).mpr ⟨hp, hm⟩⟩

/-- Lookup is determined by the multiset of live entries: two well-formed
states with the same configuration and permuted entry lists agree on every
lookup. -/
theorem get_congr_perm (st st' : CustomHashmap V) (hW : WF st) (hL : Lawful st)
    (hW' : WF st') (hL' : Lawful st')
    (heq : st'.equalsFunction = st.equalsFunction)
    (hperm : List.Perm st'.entriesList st.entriesList) (k : JSKey) :
    st'.get k = st.get k := by
  cases hG : st.get k with
  | some v =>
    obtain ⟨k', hm⟩ := (get_eq_some_iff st hW hL k v).mp hG
    exact (get_eq_some_iff st' hW' hL' k v).mpr
      ⟨k', hperm.mem_iff.mpr hm.1, by rw [heq]; exact hm.2⟩
  | none =>
    have h := (get_eq_none_iff st hW hL k).mp hG
    exact (get_eq_none_iff st' hW' hL' k).mpr
      (fun p hp => by rw [heq]; exact h p (hperm.mem_iff.mp hp))

end CustomHashmap

theorem flatten_set_eq {α : Type} (L : List (List α)) (i : Nat) (c : List α)
    (h : i < L.length) :
    (L.set i c).flatten = (L.take i).flatten ++ c ++ (L.drop (i + 1)).flatten := by
  rw [List.set_eq_take_append_cons_drop, if_pos h]
  simp

theorem flatten_decomp {α : Type} (L : List (List α)) (i : Nat) (h : i < L.length) :
    L.flatten = (L.take i).flatten ++ L[i] ++ (L.drop (i + 1)).flatten := by
  conv_lhs => rw [← List.take_append_drop i L, ← List.getElem_cons_drop L i h]
  rw [List.flatten_append, List.flatten_cons, List.append_assoc]

theorem flatten_replicate_nil {α : Type} (n : Nat) :
    (List.replicate n ([] : List α)).flatten = [] := by
  induction n with
  | zero => rfl
  | succ n ih => simp [List.replicate_succ, ih]

namespace CustomHashmap

variable {V : Type}

theorem entriesList_insertNewNode (st : CustomHashmap V) (i : Nat) (k : JSKey) (v : V)
    (hi : i < st.buckets.length) :
    List.Perm (st.insertNewNode i k v).entriesList ((k, v) :: st.entriesList) := by
  unfold insertNewNode entriesList
  dsimp only
  rw [flatten_set_eq _ _ _ hi, getD_eq_getElem _ _ _ hi]
  conv_rhs => rw [flatten_decomp st.buckets i hi]
  simp only [List.append_assoc, List.cons_append]
  exact @List.perm_middle _ (k, v) (st.buckets.take i).flatten
    (st.buckets[i] ++ (st.buckets.drop (i + 1)).flatten)

theorem insertNewNode_size (st : CustomHashmap V) (i : Nat) (k : JSKey) (v : V) :
    (st.insertNewNode i k v)._size = st._size + 1 := rfl

/-- Inserting a key that matches no live entry preserves the invariant. -/
theorem wf_insertNodeWithoutResize (st : CustomHashmap V) (hW : WF st) (hL : Lawful st)
    (k : JSKey) (v : V)
    (hnew : ∀ p ∈ st.entriesList, st.equalsFunction p.1 k = false) :
    WF (st.insertNodeWithoutResize k v) := by
  have hi : st.bucketIndex k < st.buckets.length := by
    rw [hW.buckets_length]; exact bucketIndex_lt st k hW.capacity_pos
  have hperm : List.Perm (st.insertNodeWithoutResize k v).entriesList
      ((k, v) :: st.entriesList) :=
    entriesList_insertNewNode st (st.bucketIndex k) k v hi
  refine ⟨?_, hW.capacity_pos, ?_, ?_, ?_⟩
  · simpa [insertNodeWithoutResize, insertNewNode] using hW.buckets_length
  · rw [hperm.length_eq]
    simpa [insertNodeWithoutResize, insertNewNode] using hW.size_eq
  · intro j hj p hp
    simp only [insertNodeWithoutResize, insertNewNode, List.length_set] at hj hp ⊢
    by_cases hji : j = st.bucketIndex k
    · subst hji
      rw [List.getElem_set_self] at hp
      rcases List.mem_cons.mp hp with rfl | hold
      · rw [bucketIndex_eq]
      · rw [getD_eq_getElem _ _ _ hi] at hold
        exact hW.hashed _ hi p hold
    · rw [List.getElem_set_ne (fun h => hji h.symm)] at hp
      exact hW.hashed j hj p hp
  · have hmap : List.Perm ((st.insertNodeWithoutResize k v).entriesList.map Prod.fst)
        (k :: st.entriesList.map Prod.fst) := by
      simpa using hperm.map Prod.fst
    rw [List.Perm.pairwise_iff (fun h => keyUneq_symmetric _ h) hmap]
    rw [List.pairwise_cons]
    constructor
    · intro x hx
      obtain ⟨p, hp, rfl⟩ := List.mem_map.mp hx
      exact ⟨(hL.symm k p.1).trans (hnew p hp), hnew p hp⟩
    · exact hW.uniq

theorem insertNodeWithoutResize_entries (st : CustomHashmap V) (hW : WF st)
    (k : JSKey) (v : V) :
    List.Perm (st.insertNodeWithoutResize k v).entriesList ((k, v) :: st.entriesList) := by
  have hi : st.bucketIndex k < st.buckets.length := by
    rw [hW.buckets_length]; exact bucketIndex_lt st k hW.capacity_pos
  exact entriesList_insertNewNode st (st.bucketIndex k) k v hi

/-- Folding `insertNodeWithoutResize` over a list of pairwise-unrelated fresh
entries: invariant preserved, configuration unchanged, entries accumulated. -/
theorem rehash_fold_spec (ps : List (JSKey × V)) :
    ∀ st : CustomHashmap V, WF st → Lawful st →
    List.Pairwise (keyUneq st.equalsFunction) ((ps ++ st.entriesList).map Prod.fst) →
    WF (ps.foldl (fun s p => s.insertNodeWithoutResize p.1 p.2) st) ∧
    (ps.foldl (fun s p => s.insertNodeWithoutResize p.1 p.2) st).equalsFunction
        = st.equalsFunction ∧
    (ps.foldl (fun s p => s.insertNodeWithoutResize p.1 p.2) st).hashFunction
        = st.hashFunction ∧
    (ps.foldl (fun s p => s.insertNodeWithoutResize p.1 p.2) st).loadFactor
        = st.loadFactor ∧
    (ps.foldl (fun s p => s.insertNodeWithoutResize p.1 p.2) st).capacity = st.capacity ∧
    List.Perm (ps.foldl (fun s p => s.insertNodeWithoutResize p.1 p.2) st).entriesList
      (ps ++ st.entriesList) := by
  induction ps with
  | nil =>
    intro st hW hL _
    exact ⟨hW, rfl, rfl, rfl, rfl, by simp⟩
  | cons p rest ih =>
    intro st hW hL hP
    have hhead : ∀ q ∈ st.entriesList, st.equalsFunction q.1 p.1 = false := by
      intro q hq
      have hx : q.1 ∈ (rest ++ st.entriesList).map Prod.fst :=
        List.mem_map_of_mem Prod.fst (List.mem_append_right rest hq)
      have := (List.pairwise_cons.mp (by simpa using hP)).1 q.1 hx
      exact this.2
    have hW₁ := wf_insertNodeWithoutResize st hW hL p.1 p.2 hhead
    have hperm₁ := insertNodeWithoutResize_entries st hW p.1 p.2
    have hL₁ : Lawful (st.insertNodeWithoutResize p.1 p.2) := hL
    have hpm : List.Perm (rest ++ (st.insertNodeWithoutResize p.1 p.2).entriesList)
        ((p :: rest) ++ st.entriesList) := by
      have h1 : List.Perm (rest ++ (st.insertNodeWithoutResize p.1 p.2).entriesList)
          (rest ++ p :: st.entriesList) :=
        List.Perm.append_left rest (by simpa using hperm₁)
      exact h1.trans List.perm_middle
    have hP₁ : List.Pairwise (keyUneq st.equalsFunction)
        ((rest ++ (st.insertNodeWithoutResize p.1 p.2).entriesList).map Prod.fst) := by
      rw [List.Perm.pairwise_iff (fun h => keyUneq_symmetric _ h) (hpm.map Prod.fst)]
      exact hP
    obtain ⟨hWF, hE, hH, hLF, hC, hPerm⟩ :=
      ih (st.insertNodeWithoutResize p.1 p.2) hW₁ hL₁ hP₁
    simp only [List.foldl_cons]
    exact ⟨hWF, hE, hH, hLF, hC, hPerm.trans hpm⟩

theorem rehashAllNodes_eq_foldl_flatten (st : CustomHashmap V)
    (L : List (List (JSKey × V))) :
    st.rehashAllNodes L
      = L.flatten.foldl (fun s p => s.insertNodeWithoutResize p.1 p.2) st := by
  induction L generalizing st with
  | nil => rfl
  | cons chain rest ih =>
    show (chain :: rest).foldl _ st = _
    rw [List.foldl_cons, List.flatten_cons, List.foldl_append]
    exact ih (chain.foldl (fun s2 p => s2.insertNodeWithoutResize p.1 p.2) st)

theorem wf_of_empty_buckets (st : CustomHashmap V) (hcap : 0 < st.capacity)
    (hb : st.buckets = List.replicate st.capacity []) (hs : st._size = 0) : WF st := by
  have hentries : st.entriesList = [] := by
    rw [entriesList, hb, flatten_replicate_nil]
  refine ⟨by rw [hb, List.length_replicate], hcap, by rw [hentries, hs]; rfl, ?_, ?_⟩
  · intro i hi p hp
    simp only [hb, List.getElem_replicate] at hp
    exact absurd hp (List.not_mem_nil p)
  · rw [hentries]
    exact List.Pairwise.nil

theorem resize_spec (st : CustomHashmap V) (hW : WF st) (hL : Lawful st) (c : Nat) :
    WF (st.resize c) ∧
    (st.resize c).equalsFunction = st.equalsFunction ∧
    (st.resize c).hashFunction = st.hashFunction ∧
    (st.resize c).loadFactor = st.loadFactor ∧
    (st.resize c).capacity = max HASHMAP_CONSTANTS.MIN_CAPACITY c ∧
    (st.resize c)._size = st._size ∧
    List.Perm (st.resize c).entriesList st.entriesList := by
  have hres : st.resize c
      = (resizeBase st (max HASHMAP_CONSTANTS.MIN_CAPACITY c)).rehashAllNodes st.buckets :=
    rfl
  set st₀ : CustomHashmap V := resizeBase st (max HASHMAP_CONSTANTS.MIN_CAPACITY c)
    with hst₀
  have hW₀ : WF st₀ := by
    refine wf_of_empty_buckets st₀ ?_ rfl rfl
    show 0 < max HASHMAP_CONSTANTS.MIN_CAPACITY c
    exact Nat.lt_of_lt_of_le Nat.zero_lt_one (Nat.le_max_left _ _)
  have hL₀ : Lawful st₀ := hL
  have hentries₀ : st₀.entriesList = [] := by
    rw [entriesList]
    show (List.replicate (max HASHMAP_CONSTANTS.MIN_CAPACITY c)
      ([] : List (JSKey × V))).flatten = []
    exact flatten_replicate_nil _
  have hP : List.Pairwise (keyUneq st₀.equalsFunction)
      ((st.buckets.flatten ++ st₀.entriesList).map Prod.fst) := by
    rw [hentries₀, List.append_nil]
    exact hW.uniq
  obtain ⟨hWF, hE, hH, hLF, hC, hPerm⟩ :=
    rehash_fold_spec st.buckets.flatten st₀ hW₀ hL₀ hP
  rw [hres, rehashAllNodes_eq_foldl_flatten]
  have hPerm' : List.Perm
      ((st.buckets.flatten.foldl (fun s p => s.insertNodeWithoutResize p.1 p.2)
        st₀).entriesList) st.entriesList := by
    refine hPerm.trans ?_
    rw [hentries₀, List.append_nil]
    exact List.Perm.refl _
  refine ⟨hWF, hE, hH, hLF, hC, ?_, hPerm'⟩
  rw [hWF.size_eq, hPerm'.length_eq, ← hW.size_eq]

theorem resizeIfNeeded_spec (st : CustomHashmap V) (hW : WF st) (hL : Lawful st) :
    WF st.resizeIfNeeded ∧
    st.resizeIfNeeded.equalsFunction = st.equalsFunction ∧
    st.resizeIfNeeded.hashFunction = st.hashFunction ∧
    st.resizeIfNeeded.loadFactor = st.loadFactor ∧
    st.resizeIfNeeded.capacity
      = (if (st._size : ℚ) / (st.capacity : ℚ) > st.loadFactor
          then max HASHMAP_CONSTANTS.MIN_CAPACITY
            (st.capacity * HASHMAP_CONSTANTS.RESIZE_MULTIPLIER)
          else st.capacity) ∧
    st.resizeIfNeeded._size = st._size ∧
    List.Perm st.resizeIfNeeded.entriesList st.entriesList := by
  unfold resizeIfNeeded
  split
  · obtain ⟨hWF, hE, hH, hLF, hC, hS, hPerm⟩ :=
      resize_spec st hW hL (st.capacity * HASHMAP_CONSTANTS.RESIZE_MULTIPLIER)
    exact ⟨hWF, hE, hH, hLF, hC, hS, hPerm⟩
  · exact ⟨hW, rfl, rfl, rfl, rfl, rfl, List.Perm.refl _⟩

theorem get_resizeIfNeeded (st : CustomHashmap V) (hW : WF st) (hL : Lawful st)
    (k : JSKey) : st.resizeIfNeeded.get k = st.get k := by
  obtain ⟨hWF, hE, _, _, _, _, hPerm⟩ := resizeIfNeeded_spec st hW hL
  exact get_congr_perm st st.resizeIfNeeded hW hL hWF
    (show LawfulCfg st.resizeIfNeeded.equalsFunction st.resizeIfNeeded.hashFunction by
      obtain ⟨_, hE', hH', _, _, _, _⟩ := resizeIfNeeded_spec st hW hL
      rw [hE', hH']
      exact hL)
    hE hPerm k

theorem setChainValue_map_fst (eqf : JSKey → JSKey → Bool) (k : JSKey) (v : V)
    (l : List (JSKey × V)) :
    (setChainValue eqf k v l).map Prod.fst = l.map Prod.fst := by
  induction l with
  | nil => rfl
  | cons p rest ih =>
    by_cases h : eqf p.1 k <;> simp [setChainValue, h, ih]

theorem mem_setChainValue_iff_of_no_match (eqf : JSKey → JSKey → Bool) (k : JSKey)
    (v : V) {p : JSKey × V} (hp : eqf p.1 k = false) (l : List (JSKey × V)) :
    p ∈ setChainValue eqf k v l ↔ p ∈ l := by
  induction l with
  | nil => exact Iff.rfl
  | cons q rest ih =>
    by_cases h : eqf q.1 k
    · simp only [setChainValue, h, if_pos, List.mem_cons]
      constructor
      · rintro (rfl | hm)
        · rw [h] at hp; exact absurd hp (by simp)
        · exact Or.inr hm
      · rintro (rfl | hm)
        · rw [h] at hp; exact absurd hp (by simp)
        · exact Or.inr hm
    · simp only [setChainValue, h, if_neg, Bool.false_eq_true, not_false_iff,
        List.mem_cons, ih]

theorem find?_mem_setChainValue (eqf : JSKey → JSKey → Bool) (k : JSKey) (v : V)
    {l : List (JSKey × V)} {m : JSKey × V}
    (h : l.find? (fun p => eqf p.1 k) = some m) :
    (m.1, v) ∈ setChainValue eqf k v l := by
  induction l with
  | nil => exact absurd h (by simp)
  | cons q rest ih =>
    by_cases hq : eqf q.1 k
    · rw [@List.find?_cons_of_pos _ (fun p => eqf p.1 k) q rest hq] at h
      cases h
      simp [setChainValue, hq]
    · rw [@List.find?_cons_of_neg _ (fun p => eqf p.1 k) q rest (by simp [hq])] at h
      simp only [setChainValue, hq, if_neg, Bool.false_eq_true, not_false_iff,
        List.mem_cons]
      exact Or.inr (ih h)

theorem set_eq_none_iff (st : CustomHashmap V) (k : JSKey) (v : V) :
    st.set k v = none ↔ k = JSKey.undef := by
  unfold set
  by_cases h : k = JSKey.undef
  · simp [h]
  · simp only [h, if_neg, not_false_iff]
    cases st.findNodeInBucket (st.bucketIndex k) k <;> simp

theorem set_eq_overwrite (st : CustomHashmap V) (k : JSKey) (v : V) (m : JSKey × V)
    (hk : k ≠ JSKey.undef) (hF : st.findNodeInBucket (st.bucketIndex k) k = some m) :
    st.set k v = some (st.overwriteState k v) := by
  unfold set
  rw [if_neg hk]
  simp only [hF]
  rfl

theorem set_eq_insert (st : CustomHashmap V) (k : JSKey) (v : V)
    (hk : k ≠ JSKey.undef) (hF : st.findNodeInBucket (st.bucketIndex k) k = none) :
    st.set k v = some (st.insertNodeWithoutResize k v).resizeIfNeeded := by
  unfold set
  rw [if_neg hk]
  simp only [hF]
  rfl

theorem overwrite_entries_decomp (st : CustomHashmap V) (hW : WF st) (k : JSKey) (v : V) :
    (st.overwriteState k v).entriesList
      = (st.buckets.take (st.bucketIndex k)).flatten
        ++ setChainValue st.equalsFunction k v
            (st.buckets.getD (st.bucketIndex k) [])
        ++ (st.buckets.drop (st.bucketIndex k + 1)).flatten := by
  have hi : st.bucketIndex k < st.buckets.length := by
    rw [hW.buckets_length]; exact bucketIndex_lt st k hW.capacity_pos
  unfold overwriteState entriesList
  exact flatten_set_eq _ _ _ hi

theorem entries_decomp_at (st : CustomHashmap V) (hW : WF st) (k : JSKey) :
    st.entriesList
      = (st.buckets.take (st.bucketIndex k)).flatten
        ++ st.buckets.getD (st.bucketIndex k) []
        ++ (st.buckets.drop (st.bucketIndex k + 1)).flatten := by
  have hi : st.bucketIndex k < st.buckets.length := by
    rw [hW.buckets_length]; exact bucketIndex_lt st k hW.capacity_pos
  rw [getD_eq_getElem _ _ _ hi]
  exact flatten_decomp st.buckets (st.bucketIndex k) hi

theorem overwrite_entries_map_fst (st : CustomHashmap V) (hW : WF st)
    (k : JSKey) (v : V) :
    (st.overwriteState k v).entriesList.map Prod.fst
      = st.entriesList.map Prod.fst := by
  rw [overwrite_entries_decomp st hW, entries_decomp_at st hW k]
  simp only [List.map_append, setChainValue_map_fst]

theorem wf_overwriteState (st : CustomHashmap V) (hW : WF st)
    (k : JSKey) (v : V) : WF (st.overwriteState k v) := by
  have hi : st.bucketIndex k < st.buckets.length := by
    rw [hW.buckets_length]; exact bucketIndex_lt st k hW.capacity_pos
  refine ⟨?_, hW.capacity_pos, ?_, ?_, ?_⟩
  · simpa [overwriteState] using hW.buckets_length
  · have hlen : (st.overwriteState k v).entriesList.length = st.entriesList.length := by
      have := congrArg List.length (overwrite_entries_map_fst st hW k v)
      simpa using this
    rw [hlen]
    exact hW.size_eq
  · intro j hj p hp
    simp only [overwriteState, List.length_set] at hj hp ⊢
    by_cases hji : j = st.bucketIndex k
    · subst hji
      rw [List.getElem_set_self] at hp
      have hfst : p.1 ∈ (setChainValue st.equalsFunction k v
          (st.buckets.getD (st.bucketIndex k) [])).map Prod.fst :=
        List.mem_map_of_mem Prod.fst hp
      rw [setChainValue_map_fst] at hfst
      obtain ⟨q, hq, hq1⟩ := List.mem_map.mp hfst
      rw [getD_eq_getElem _ _ _ hi] at hq
      rw [← hq1]
      exact hW.hashed _ hi q hq
    · rw [List.getElem_set_ne (fun h => hji h.symm)] at hp
      exact hW.hashed j hj p hp
  · have hm := overwrite_entries_map_fst st hW k v
    show List.Pairwise (keyUneq st.equalsFunction)
      ((st.overwriteState k v).entriesList.map Prod.fst)
    rw [hm]
    exact hW.uniq

theorem get_overwrite_match (st : CustomHashmap V) (hW : WF st) (hL : Lawful st)
    {k : JSKey} {m : JSKey × V} (v : V)
    (hFind : st.findNode k = some m)
    (q : JSKey) (hkq : st.equalsFunction k q = true) :
    (st.overwriteState k v).get q = some v := by
  have hW' := wf_overwriteState st hW k v
  have hL' : Lawful (st.overwriteState k v) := hL
  have hmk : st.equalsFunction m.1 k = true :=
    ((findNode_eq_some_iff st hW hL k m).mp hFind).2
  refine (get_eq_some_iff _ hW' hL' q v).mpr ⟨m.1, ?_, hL.trans m.1 k q hmk hkq⟩
  rw [overwrite_entries_decomp st hW]
  refine List.mem_append.mpr (Or.inl (List.mem_append.mpr (Or.inr ?_)))
  exact find?_mem_setChainValue st.equalsFunction k v hFind

theorem get_overwrite_other (st : CustomHashmap V) (hW : WF st) (hL : Lawful st)
    (k : JSKey) (v : V)
    (q : JSKey) (hkq : st.equalsFunction k q = false) :
    (st.overwriteState k v).get q = st.get q := by
  have hW' := wf_overwriteState st hW k v
  have hL' : Lawful (st.overwriteState k v) := hL
  cases hG : st.get q with
  | some w =>
    obtain ⟨k', hmem, hk'q⟩ := (get_eq_some_iff st hW hL q w).mp hG
    have hk'k : st.equalsFunction k' k = false := by
      by_contra hne
      have h1 : st.equalsFunction k' k = true := by
        cases h : st.equalsFunction k' k
        · exact absurd h hne
        · rfl
      have h2 : st.equalsFunction k k' = true := by rw [hL.symm]; exact h1
      have := hL.trans k k' q h2 hk'q
      rw [hkq] at this
      exact absurd this (by simp)
    refine (get_eq_some_iff _ hW' hL' q w).mpr ⟨k', ?_, hk'q⟩
    rw [overwrite_entries_decomp st hW]
    rw [entries_decomp_at st hW k] at hmem
    rcases List.mem_append.mp hmem with hAB | hB
    · rcases List.mem_append.mp hAB with hA | hchain
      · exact List.mem_append.mpr (Or.inl (List.mem_append.mpr (Or.inl hA)))
      · refine List.mem_append.mpr (Or.inl (List.mem_append.mpr (Or.inr ?_)))
        exact (mem_setChainValue_iff_of_no_match st.equalsFunction k v hk'k _).mpr hchain
    · exact List.mem_append.mpr (Or.inr hB)
  | none =>
    refine (get_eq_none_iff _ hW' hL' q).mpr ?_
    intro p hp
    have hfst : p.1 ∈ (st.overwriteState k v).entriesList.map Prod.fst :=
      List.mem_map_of_mem Prod.fst hp
    rw [overwrite_entries_map_fst st hW] at hfst
    obtain ⟨p₀, hp₀, hp₀1⟩ := List.mem_map.mp hfst
    rw [← hp₀1]
    exact (get_eq_none_iff st hW hL q).mp hG p₀ hp₀

theorem get_insert_match (st : CustomHashmap V) (hW : WF st) (hL : Lawful st)
    (k : JSKey) (v : V)
    (hnone : ∀ p ∈ st.entriesList, st.equalsFunction p.1 k = false)
    (q : JSKey) (hkq : st.equalsFunction k q = true) :
    (st.insertNodeWithoutResize k v).get q = some v := by
  have hW₁ := wf_insertNodeWithoutResize st hW hL k v hnone
  have hL₁ : Lawful (st.insertNodeWithoutResize k v) := hL
  have hperm := insertNodeWithoutResize_entries st hW k v
  exact (get_eq_some_iff _ hW₁ hL₁ q v).mpr
    ⟨k, hperm.mem_iff.mpr (List.mem_cons_self _ _), hkq⟩

theorem perm_append3_cons {α : Type} (X Y : List α) (a : α) (c l : List α)
    (h : l.Perm (a :: c)) : (X ++ l ++ Y).Perm (a :: (X ++ c ++ Y)) := by
  have h1 : (X ++ l ++ Y).Perm (X ++ (a :: c) ++ Y) :=
    List.Perm.append_right _ (List.Perm.append_left _ h)
  refine h1.trans ?_
  have h2 : X ++ (a :: c) ++ Y = X ++ a :: (c ++ Y) := by simp
  rw [h2]
  have h3 := @List.perm_middle _ a X (c ++ Y)
  refine h3.trans ?_
  rw [← List.append_assoc]

theorem getD_replicate_nil {α : Type} (n i : Nat) :
    (List.replicate n ([] : List α)).getD i [] = [] := by
  rw [List.getD_eq_getElem?_getD]
  by_cases h : i < n
  · rw [List.getElem?_replicate, if_pos h]
    rfl
  · rw [List.getElem?_replicate, if_neg h]
    rfl

theorem get_clear (st : CustomHashmap V) (k : JSKey) : st.clear.get k = none := by
  unfold clear get findNode findNodeInBucket
  simp only [getD_replicate_nil]
  rfl

theorem wf_clear (st : CustomHashmap V) (hcap : 0 < st.capacity) : WF st.clear :=
  wf_of_empty_buckets st.clear hcap rfl rfl

theorem clear_entries (st : CustomHashmap V) : st.clear.entriesList = [] := by
  unfold clear entriesList
  exact flatten_replicate_nil _

theorem deleteFromChain_eq_none_iff (eqf : JSKey → JSKey → Bool) (k : JSKey)
    (l : List (JSKey × V)) :
    deleteFromChain eqf k l = none ↔ ∀ p ∈ l, eqf p.1 k = false := by
  induction l with
  | nil => simp [deleteFromChain]
  | cons q rest ih =>
    by_cases h : eqf q.1 k
    · simp [deleteFromChain, h]
    · simp only [deleteFromChain, h, if_neg, Bool.false_eq_true, not_false_iff,
        Option.map_eq_none', ih, List.mem_cons]
      constructor
      · rintro hrest p (rfl | hp)
        · exact Bool.of_not_eq_true h
        · exact hrest p hp
      · intro hall p hp
        exact hall p (Or.inr hp)

theorem deleteFromChain_some_spec (eqf : JSKey → JSKey → Bool) (k : JSKey) :
    ∀ l c' : List (JSKey × V), deleteFromChain eqf k l = some c' →
    ∃ A m B, l = A ++ m :: B ∧ c' = A ++ B ∧ eqf m.1 k = true ∧
      ∀ p ∈ A, eqf p.1 k = false := by
  intro l
  induction l with
  | nil => intro c' h; exact absurd h (by simp [deleteFromChain])
  | cons q rest ih =>
    intro c' h
    by_cases hq : eqf q.1 k
    · rw [show deleteFromChain eqf k (q :: rest) = some rest from by
        simp [deleteFromChain, hq]] at h
      cases h
      exact ⟨[], q, rest, rfl, rfl, hq, by simp⟩
    · rw [show deleteFromChain eqf k (q :: rest)
          = (deleteFromChain eqf k rest).map (q :: ·) from by
        simp [deleteFromChain, hq]] at h
      obtain ⟨c'', hc'', rfl⟩ := Option.map_eq_some'.mp h
      obtain ⟨A, m, B, rfl, rfl, hm, hA⟩ := ih c'' hc''
      refine ⟨q :: A, m, B, rfl, rfl, hm, ?_⟩
      intro p hp
      rcases List.mem_cons.mp hp with hEq | hp'
      · rw [hEq]; exact Bool.of_not_eq_true hq
      · exact hA p hp'

/-- Full behavioural specification of `delete`: the flag reports whether a
match existed, configuration and capacity are untouched, `_size` drops by one
exactly on success, keys equivalent to the deleted key no longer resolve, and
every other key reads what it read before. -/
theorem delete_spec (st : CustomHashmap V) (hW : WF st) (hL : Lawful st) (k : JSKey) :
    (st.delete k).1 = st.has k ∧
    WF (st.delete k).2 ∧
    (st.delete k).2.equalsFunction = st.equalsFunction ∧
    (st.delete k).2.hashFunction = st.hashFunction ∧
    (st.delete k).2.loadFactor = st.loadFactor ∧
    (st.delete k).2.capacity = st.capacity ∧
    (st.delete k).2._size = (if (st.delete k).1 then st._size - 1 else st._size) ∧
    (∀ q, st.equalsFunction k q = true → (st.delete k).2.get q = none) ∧
    (∀ q, st.equalsFunction k q = false → (st.delete k).2.get q = st.get q) ∧
    ((st.delete k).1 = false → (st.delete k).2 = st) := by
  have hi : st.bucketIndex k < st.buckets.length := by
    rw [hW.buckets_length]; exact bucketIndex_lt st k hW.capacity_pos
  cases hD : deleteFromChain st.equalsFunction k (st.buckets.getD (st.bucketIndex k) []) with
  | none =>
    have hdel : st.delete k = (false, st) := by
      unfold delete
      simp only [hD]
    have hchain := (deleteFromChain_eq_none_iff st.equalsFunction k _).mp hD
    have hfind : st.findNode k = none := by
      unfold findNode findNodeInBucket
      rw [List.find?_eq_none]
      intro p hp
      rw [hchain p hp]
      simp
    have hhas : st.has k = false := by unfold has; rw [hfind]; rfl
    have hgetnone : ∀ q, st.equalsFunction k q = true → st.get q = none := by
      intro q hkq
      rw [get_eq_none_iff st hW hL]
      intro p hp
      by_contra hne
      have hpq : st.equalsFunction p.1 q = true := by
        cases h : st.equalsFunction p.1 q
        · exact absurd h hne
        · rfl
      have hqk : st.equalsFunction q k = true := by rw [hL.symm]; exact hkq
      have hpk := hL.trans p.1 q k hpq hqk
      have := match_in_bucket st hW hL hp hpk
      rw [hchain p this] at hpk
      exact absurd hpk (by simp)
    rw [hdel, hhas]
    refine ⟨rfl, hW, rfl, rfl, rfl, rfl, rfl, hgetnone, fun q _ => rfl, fun _ => rfl⟩
  | some c' =>
    obtain ⟨A, m, B, hlA, hc', hm, hAnone⟩ :=
      deleteFromChain_some_spec st.equalsFunction k _ c' hD
    have hdel : st.delete k = (true, st.deleteState k c') := by
      unfold delete deleteState
      simp only [hD]
    set st' : CustomHashmap V := st.deleteState k c' with hst'
    have hmchain : m ∈ st.buckets.getD (st.bucketIndex k) [] := by
      rw [hlA]
      exact List.mem_append_right A (List.mem_cons_self m B)
    have hmentries : m ∈ st.entriesList := mem_entriesList_of_mem_bucket st hi hmchain
    have hhas : st.has k = true := by
      unfold has findNode findNodeInBucket
      have hex : ∃ x ∈ st.buckets.getD (st.bucketIndex k) [],
          (fun p => st.equalsFunction p.1 k) x = true := ⟨m, hmchain, hm⟩
      exact List.find?_isSome.mpr hex
    have hchainperm : List.Perm (st.buckets.getD (st.bucketIndex k) []) (m :: c') := by
      rw [hlA, hc']
      exact List.perm_middle
    have hsub : c'.Sublist (st.buckets.getD (st.bucketIndex k) []) := by
      rw [hlA, hc']
      exact List.Sublist.append (List.Sublist.refl A) (List.sublist_cons_self m B)
    have hdecomp := entries_decomp_at st hW k
    have hdecomp' : st'.entriesList
        = (st.buckets.take (st.bucketIndex k)).flatten ++ c'
          ++ (st.buckets.drop (st.bucketIndex k + 1)).flatten := by
      show (st.buckets.set (st.bucketIndex k) c').flatten = _
      exact flatten_set_eq _ _ _ hi
    have hperm : List.Perm st.entriesList (m :: st'.entriesList) := by
      rw [hdecomp, hdecomp']
      exact perm_append3_cons _ _ m c' _ hchainperm
    have hsubentries : st'.entriesList.Sublist st.entriesList := by
      rw [hdecomp, hdecomp']
      exact List.Sublist.append
        (List.Sublist.append (List.Sublist.refl _) hsub) (List.Sublist.refl _)
    have hW' : WF st' := by
      refine ⟨?_, hW.capacity_pos, ?_, ?_, ?_⟩
      · show (st.buckets.set (st.bucketIndex k) c').length = st.capacity
        rw [List.length_set]
        exact hW.buckets_length
      · show st._size - 1 = st'.entriesList.length
        have h1 : st.entriesList.length = st'.entriesList.length + 1 := by
          rw [hperm.length_eq]
          rfl
        rw [← hW.size_eq] at h1
        omega
      · intro j hj p hp
        show rawHash st.hashFunction p.1 % st.capacity = j
        have hj' : j < (st.buckets.set (st.bucketIndex k) c').length := hj
        by_cases hji : j = st.bucketIndex k
        · subst hji
          have hp' : p ∈ (st.buckets.set (st.bucketIndex k) c')[st.bucketIndex k] := hp
          rw [List.getElem_set_self] at hp'
          have : p ∈ st.buckets.getD (st.bucketIndex k) [] := hsub.mem hp'
          rw [getD_eq_getElem _ _ _ hi] at this
          exact hW.hashed _ hi p this
        · have hp' : p ∈ (st.buckets.set (st.bucketIndex k) c')[j] := hp
          rw [List.getElem_set_ne (fun h => hji h.symm)] at hp'
          have hjlen : j < st.buckets.length := by
            have := hj'
            rw [List.length_set] at this
            exact this
          exact hW.hashed j hjlen p hp'
      · exact List.Pairwise.sublist (hsubentries.map Prod.fst) hW.uniq
    have hL' : Lawful st' := hL
    have hnodup := keys_nodup st hW hL
    have hmnotin : m ∉ st'.entriesList := by
      intro hmem
      have hn : (st.entriesList.map Prod.fst).Nodup := hnodup
      have hn' : ((m :: st'.entriesList).map Prod.fst).Nodup :=
        (hperm.map Prod.fst).nodup_iff.mp hn
      rw [List.map_cons, List.nodup_cons] at hn'
      exact hn'.1 (List.mem_map_of_mem Prod.fst hmem)
    have hget_match : ∀ q, st.equalsFunction k q = true → st'.get q = none := by
      intro q hkq
      rw [get_eq_none_iff st' hW' hL' q]
      intro p hp
      by_contra hne
      have hpq : st.equalsFunction p.1 q = true := by
        cases h : st.equalsFunction p.1 q
        · exact absurd h hne
        · rfl
      have hqk : st.equalsFunction q k = true := by rw [hL.symm]; exact hkq
      have hpk := hL.trans p.1 q k hpq hqk
      have hpm : p = m := matches_unique st hW hL
        ⟨hperm.mem_iff.mpr (List.mem_cons_of_mem m hp), hpk⟩ ⟨hmentries, hm⟩
      rw [hpm] at hp
      exact hmnotin hp
    have hget_other : ∀ q, st.equalsFunction k q = false → st'.get q = st.get q := by
      intro q hkq
      cases hG : st.get q with
      | some w =>
        obtain ⟨k', hmem, hk'q⟩ := (get_eq_some_iff st hW hL q w).mp hG
        have hne : (k', w) ≠ m := by
          intro hEq
          have hmq : st.equalsFunction m.1 q = true := by rw [← hEq]; exact hk'q
          have hkm : st.equalsFunction k m.1 = true := by rw [hL.symm]; exact hm
          have := hL.trans k m.1 q hkm hmq
          rw [hkq] at this
          exact absurd this (by simp)
        have hmem' : (k', w) ∈ st'.entriesList := by
          have := hperm.mem_iff.mp hmem
          rcases List.mem_cons.mp this with hEq | hmem'
          · exact absurd hEq hne
          · exact hmem'
        exact (get_eq_some_iff st' hW' hL' q w).mpr ⟨k', hmem', hk'q⟩
      | none =>
        rw [get_eq_none_iff st' hW' hL' q]
        intro p hp
        exact (get_eq_none_iff st hW hL q).mp hG p (hsubentries.mem hp)
    rw [hdel, hhas]
    exact ⟨rfl, hW', rfl, rfl, rfl, rfl, rfl, hget_match, hget_other,
      fun h => absurd h (by simp)⟩

theorem get_insert_other (st : CustomHashmap V) (hW : WF st) (hL : Lawful st)
    (k : JSKey) (v : V)
    (hnone : ∀ p ∈ st.entriesList, st.equalsFunction p.1 k = false)
    (q : JSKey) (hkq : st.equalsFunction k q = false) :
    (st.insertNodeWithoutResize k v).get q = st.get q := by
  have hW₁ := wf_insertNodeWithoutResize st hW hL k v hnone
  have hL₁ : Lawful (st.insertNodeWithoutResize k v) := hL
  have hperm := insertNodeWithoutResize_entries st hW k v
  cases hG : st.get q with
  | some w =>
    obtain ⟨k', hmem, hk'q⟩ := (get_eq_some_iff st hW hL q w).mp hG
    exact (get_eq_some_iff _ hW₁ hL₁ q w).mpr
      ⟨k', hperm.mem_iff.mpr (List.mem_cons_of_mem _ hmem), hk'q⟩
  | none =>
    refine (get_eq_none_iff _ hW₁ hL₁ q).mpr ?_
    intro p hp
    rcases List.mem_cons.mp (hperm.mem_iff.mp hp) with rfl | hold
    · exact hkq
    · exact (get_eq_none_iff st hW hL q).mp hG p hold

/-- Full behavioural specification of a successful `set`: well-formedness and
configuration are preserved; every key equivalent to the written key now reads
the written value and every other key reads what it read before; an overwrite
leaves `capacity` and `_size` unchanged, while a fresh insert increments
`_size`, prepends the new entry, and grows `capacity` exactly when the load
factor is exceeded after the insert. -/
theorem set_spec (st : CustomHashmap V) (hW : WF st) (hL : Lawful st)
    (k : JSKey) (v : V) (hk : k ≠ JSKey.undef) :
    ∃ st', st.set k v = some st' ∧ WF st' ∧
      st'.equalsFunction = st.equalsFunction ∧
      st'.hashFunction = st.hashFunction ∧
      st'.loadFactor = st.loadFactor ∧
      (∀ q, st.equalsFunction k q = true → st'.get q = some v) ∧
      (∀ q, st.equalsFunction k q = false → st'.get q = st.get q) ∧
      (st.has k = true → st'.capacity = st.capacity ∧ st'._size = st._size) ∧
      (st.has k = false →
        st'._size = st._size + 1 ∧
        List.Perm st'.entriesList ((k, v) :: st.entriesList) ∧
        st'.capacity = (if (((st._size + 1 : Nat) : ℚ)) / (st.capacity : ℚ)
            > st.loadFactor
          then max HASHMAP_CONSTANTS.MIN_CAPACITY
            (st.capacity * HASHMAP_CONSTANTS.RESIZE_MULTIPLIER)
          else st.capacity)) := by
  cases hF : st.findNodeInBucket (st.bucketIndex k) k with
  | some m =>
    have hFind : st.findNode k = some m := hF
    have hhas : st.has k = true := by unfold has; rw [hFind]; rfl
    refine ⟨st.overwriteState k v, set_eq_overwrite st k v m hk hF,
      wf_overwriteState st hW k v, rfl, rfl, rfl, ?_, ?_, fun _ => ⟨rfl, rfl⟩, ?_⟩
    · intro q hkq
      exact get_overwrite_match st hW hL v hFind q hkq
    · intro q hkq
      exact get_overwrite_other st hW hL k v q hkq
    · intro h
      rw [hhas] at h
      exact absurd h (by simp)
  | none =>
    have hFind : st.findNode k = none := hF
    have hhas : st.has k = false := by unfold has; rw [hFind]; rfl
    have hnone := (findNode_eq_none_iff st hW hL k).mp hFind
    have hW₁ := wf_insertNodeWithoutResize st hW hL k v hnone
    have hL₁ : Lawful (st.insertNodeWithoutResize k v) := hL
    obtain ⟨hWr, hEr, hHr, hLFr, hCr, hSr, hPr⟩ := resizeIfNeeded_spec _ hW₁ hL₁
    refine ⟨(st.insertNodeWithoutResize k v).resizeIfNeeded,
      set_eq_insert st k v hk hF, hWr, hEr, hHr, hLFr, ?_, ?_, ?_, fun _ => ⟨?_, ?_, ?_⟩⟩
    · intro q hkq
      rw [get_resizeIfNeeded _ hW₁ hL₁ q]
      exact get_insert_match st hW hL k v hnone q hkq
    · intro q hkq
      rw [get_resizeIfNeeded _ hW₁ hL₁ q]
      exact get_insert_other st hW hL k v hnone q hkq
    · intro h
      rw [hhas] at h
      exact absurd h (by simp)
    · rw [hSr]
      rfl
    · exact hPr.trans (insertNodeWithoutResize_entries st hW k v)
    · rw [hCr]
      rfl

theorem lawful_of_eq_fields (st st' : CustomHashmap V)
    (hE : st'.equalsFunction = st.equalsFunction)
    (hH : st'.hashFunction = st.hashFunction) (hL : Lawful st) : Lawful st' := by
  show LawfulCfg st'.equalsFunction st'.hashFunction
  rw [hE, hH]
  exact hL

theorem applyOp_preserves (st : CustomHashmap V) (hW : WF st) (hL : Lawful st)
    (op : Op V) :
    WF (st.applyOp op) ∧ (st.applyOp op).equalsFunction = st.equalsFunction ∧
      (st.applyOp op).hashFunction = st.hashFunction := by
  cases op with
  | set k v =>
    by_cases hk : k = JSKey.undef
    · have : st.set k v = none := (set_eq_none_iff st k v).mpr hk
      simp only [applyOp, this, Option.getD_none]
      exact ⟨hW, trivial, trivial⟩
    · obtain ⟨st', hset, hW', hE, hH, _, _, _, _, _⟩ := set_spec st hW hL k v hk
      simp only [applyOp, hset, Option.getD_some]
      exact ⟨hW', hE, hH⟩
  | delete k =>
    obtain ⟨_, hW', hE, hH, _, _, _, _, _, _⟩ := delete_spec st hW hL k
    exact ⟨hW', hE, hH⟩
  | clear =>
    exact ⟨wf_clear st hW.capacity_pos, rfl, rfl⟩

theorem applyOps_preserves (ops : List (Op V)) :
    ∀ st : CustomHashmap V, WF st → Lawful st →
    WF (st.applyOps ops) ∧ (st.applyOps ops).equalsFunction = st.equalsFunction ∧
      (st.applyOps ops).hashFunction = st.hashFunction := by
  induction ops with
  | nil => exact fun st hW _ => ⟨hW, rfl, rfl⟩
  | cons op rest ih =>
    intro st hW hL
    obtain ⟨hW₁, hE₁, hH₁⟩ := applyOp_preserves st hW hL op
    have hL₁ := lawful_of_eq_fields st (st.applyOp op) hE₁ hH₁ hL
    obtain ⟨hWF, hEF, hHF⟩ := ih (st.applyOp op) hW₁ hL₁
    exact ⟨hWF, hEF.trans hE₁, hHF.trans hH₁⟩

theorem get_applyOp_notTouching (st : CustomHashmap V) (hW : WF st) (hL : Lawful st)
    (k : JSKey) (op : Op V) (hop : NotTouching st.equalsFunction k op) :
    (st.applyOp op).get k = st.get k := by
  cases op with
  | set k2 v2 =>
    by_cases hk2 : k2 = JSKey.undef
    · have : st.set k2 v2 = none := (set_eq_none_iff st k2 v2).mpr hk2
      simp only [applyOp, this, Option.getD_none]
    · obtain ⟨st', hset, _, _, _, _, _, hother, _, _⟩ := set_spec st hW hL k2 v2 hk2
      simp only [applyOp, hset, Option.getD_some]
      exact hother k hop
  | delete k2 =>
    obtain ⟨_, _, _, _, _, _, _, _, hother, _⟩ := delete_spec st hW hL k2
    exact hother k hop
  | clear => exact absurd hop (by simp [NotTouching])

theorem get_applyOps_notTouching (ops : List (Op V)) :
    ∀ st : CustomHashmap V, WF st → Lawful st → ∀ k : JSKey,
    (∀ op ∈ ops, NotTouching st.equalsFunction k op) →
    (st.applyOps ops).get k = st.get k := by
  induction ops with
  | nil => exact fun st _ _ k _ => rfl
  | cons op rest ih =>
    intro st hW hL k hops
    obtain ⟨hW₁, hE₁, hH₁⟩ := applyOp_preserves st hW hL op
    have hL₁ := lawful_of_eq_fields st (st.applyOp op) hE₁ hH₁ hL
    have hrest : ∀ o ∈ rest, NotTouching (st.applyOp op).equalsFunction k o := by
      intro o ho
      rw [hE₁]
      exact hops o (List.mem_cons_of_mem op ho)
    have h1 : (st.applyOps (op :: rest)).get k = ((st.applyOp op).applyOps rest).get k := rfl
    rw [h1, ih (st.applyOp op) hW₁ hL₁ k hrest]
    exact get_applyOp_notTouching st hW hL k op (hops op (List.mem_cons_self op rest))

theorem foldl_nested_eq_flatten {α β : Type} (f : β → α → β) (L : List (List α)) :
    ∀ init : β, L.foldl (fun a chain => chain.foldl f a) init = L.flatten.foldl f init := by
  induction L with
  | nil => intro init; rfl
  | cons chain rest ih =>
    intro init
    rw [List.foldl_cons, List.flatten_cons, List.foldl_append]
    exact ih _

theorem foldl_push_eq_map {α β : Type} (f : α → β) (l : List α) :
    ∀ acc : List β, l.foldl (fun a p => a ++ [f p]) acc = acc ++ l.map f := by
  induction l with
  | nil => intro acc; simp
  | cons p rest ih =>
    intro acc
    rw [List.foldl_cons, ih, List.map_cons]
    simp

theorem keys_eq_map (st : CustomHashmap V) : st.keys = st.entriesList.map Prod.fst := by
  unfold keys forEachNodeFold entriesList
  rw [foldl_nested_eq_flatten, foldl_push_eq_map Prod.fst]
  simp

theorem values_eq_map (st : CustomHashmap V) : st.values = st.entriesList.map Prod.snd := by
  unfold values forEachNodeFold entriesList
  rw [foldl_nested_eq_flatten, foldl_push_eq_map Prod.snd]
  simp

theorem entries_eq_map (st : CustomHashmap V) :
    st.entries = st.entriesList.map (fun p => (p.1, p.2)) := by
  unfold entries forEachNodeFold entriesList
  rw [foldl_nested_eq_flatten]
  have h := foldl_push_eq_map (fun p : JSKey × V => (p.1, p.2)) st.buckets.flatten []
  simpa using h

theorem forEachSeq_eq_map (st : CustomHashmap V) :
    st.forEachSeq = st.entriesList.map (fun p => (p.2, p.1)) := by
  unfold forEachSeq forEachNodeFold entriesList
  rw [foldl_nested_eq_flatten]
  have h := foldl_push_eq_map (fun p : JSKey × V => (p.2, p.1)) st.buckets.flatten []
  simpa using h

end CustomHashmap

namespace CustomHashmap

variable {V : Type}

theorem wf_make (opts : HashmapOptions) : WF (make (V := V) opts) := by
  refine wf_of_empty_buckets _ ?_ rfl rfl
  show 0 < max HASHMAP_CONSTANTS.MIN_CAPACITY _
  exact Nat.lt_of_lt_of_le Nat.zero_lt_one (Nat.le_max_left _ _)

theorem lawful_make_of_default_eq (opts : HashmapOptions)
    (h : opts.equalsFunction = none) : Lawful (make (V := V) opts) := by
  show LawfulCfg (make (V := V) opts).equalsFunction (make (V := V) opts).hashFunction
  have : (make (V := V) opts).equalsFunction = jsStrictEq := by
    show opts.equalsFunction.getD jsStrictEq = jsStrictEq
    rw [h]
    rfl
  rw [this]
  exact lawfulCfg_jsStrictEq _

end CustomHashmap

namespace HashUtils

theorem toUint32_lt (n : Int) : toUint32 n < 2 ^ 32 := by
  unfold toUint32
  have h1 : n % (2 ^ 32 : Int) < 2 ^ 32 := Int.emod_lt_of_pos n (by norm_num)
  have h2 : 0 ≤ n % (2 ^ 32 : Int) := Int.emod_nonneg n (by norm_num)
  omega

theorem shiftRight_self_le (u k : Nat) : u >>> k ≤ u := by
  rw [Nat.shiftRight_eq_div_pow]
  exact Nat.div_le_self u (2 ^ k)

theorem hashNumber_lt (num : Int) : hashNumber num < 2 ^ 32 := by
  unfold hashNumber
  refine Nat.xor_lt_two_pow (toUint32_lt num) ?_
  exact Nat.lt_of_le_of_lt (shiftRight_self_le _ _) (toUint32_lt num)

theorem hashString_lt (s : String) : hashString s < 2 ^ 32 :=
  toUint32_lt _

theorem defaultHash_lt (k : JSKey) : defaultHash k < 2 ^ 32 := by
  cases k with
  | undef => exact hashString_lt _
  | num n => exact hashNumber_lt n
  | str s => exact hashString_lt s
  | bool b => cases b <;> decide
  | other json fallback =>
    cases json with
    | none => exact hashString_lt _
    | some j => exact hashString_lt j

end HashUtils

theorem hashNumber_eq_spec (num : Int) :
    HashUtils.hashNumber num = specHashNumber num := by
  unfold specHashNumber
  rw [Nat.mod_eq_of_lt]
  · rfl
  · exact Nat.xor_lt_two_pow (HashUtils.toUint32_lt num)
      (Nat.lt_of_le_of_lt (HashUtils.shiftRight_self_le _ _) (HashUtils.toUint32_lt num))

theorem hashString_eq_spec (s : String) :
    HashUtils.hashString s = specHashString s := rfl

namespace CustomHashmap

variable {V : Type}

theorem get_none_iff_has_false (st : CustomHashmap V) (k : JSKey) :
    st.get k = none ↔ st.has k = false := by
  unfold get has
  cases st.findNode k <;> simp

end CustomHashmap

theorem sampleTable_wf : CustomHashmap.WF sampleTable :=
  ⟨by decide, by decide, by decide, by decide, by decide⟩

theorem sampleTable_lawful : CustomHashmap.Lawful sampleTable :=
  CustomHashmap.lawfulCfg_jsStrictEq none

open CustomHashmap in
/-- C2: resizing preserves the table's key→value mappings and its size: every
key reads the same value after `resize` as before, the multiset of stored
keys is unchanged (no key appears or disappears), and `_size` is unchanged,
for any capacity growth; only the placement of entries in buckets changes. -/
theorem claim_C2 {V : Type} (st : CustomHashmap V) (hW : WF st) (hL : Lawful st)
    (c : Nat) :
    (∀ k, (st.resize c).get k = st.get k) ∧
    (st.resize c)._size = st._size ∧
    List.Perm ((st.resize c).entriesList.map Prod.fst)
      (st.entriesList.map Prod.fst) := by
  obtain ⟨hWF, hE, hH, _, _, hS, hPerm⟩ := resize_spec st hW hL c
  refine ⟨?_, hS, hPerm.map Prod.fst⟩
  intro k
  exact get_congr_perm st (st.resize c) hW hL hWF
    (lawful_of_eq_fields st (st.resize c) hE hH hL) hE hPerm k

/-- Witness for C2 at the concrete `sampleTable`, growing capacity 2 → 4. -/
theorem claim_C2_witness :
    CustomHashmap.WF sampleTable ∧ CustomHashmap.Lawful sampleTable ∧
    ((∀ k, (sampleTable.resize 4).get k = sampleTable.get k) ∧
      (sampleTable.resize 4)._size = sampleTable._size ∧
      List.Perm ((sampleTable.resize 4).entriesList.map Prod.fst)
        (sampleTable.entriesList.map Prod.fst)) :=
  ⟨sampleTable_wf, sampleTable_lawful,
    claim_C2 sampleTable sampleTable_wf sampleTable_lawful 4⟩

open CustomHashmap in
/-- C3: `_size` bookkeeping.  After any sequence of operations from a
well-formed state, `_size` equals the sum of the chain lengths over all
buckets; a `set` that overwrites never changes `_size` while a `set` of a new
key adds exactly one; a `delete` subtracts one exactly when it returns
`true`; `clear` resets `_size` to zero.  Moreover `_size` counts the live
entries and the stored keys are pairwise distinct, so `_size` is exactly the
number of distinct keys ever set minus those successfully deleted. -/
theorem claim_C3 {V : Type} (st : CustomHashmap V) (hW : WF st) (hL : Lawful st) :
    (∀ ops : List (Op V), (st.applyOps ops)._size
        = ((st.applyOps ops).buckets.map List.length).sum) ∧
    (∀ (k : JSKey) (v : V) (st₁ : CustomHashmap V), st.set k v = some st₁ →
      st₁._size = (if st.has k then st._size else st._size + 1)) ∧
    (∀ k : JSKey, (st.delete k).2._size
        = (if (st.delete k).1 then st._size - 1 else st._size)) ∧
    st.clear._size = 0 ∧
    st._size = st.entriesList.length ∧
    (st.entriesList.map Prod.fst).Nodup := by
  refine ⟨?_, ?_, ?_, rfl, hW.size_eq, keys_nodup st hW hL⟩
  · intro ops
    obtain ⟨hWF, _, _⟩ := applyOps_preserves ops st hW hL
    rw [hWF.size_eq]
    unfold entriesList
    rw [List.length_flatten]
  · intro k v st₁ hset
    have hk : k ≠ JSKey.undef := by
      intro hEq
      rw [(set_eq_none_iff st k v).mpr hEq] at hset
      exact Option.noConfusion hset
    obtain ⟨st', hset', _, _, _, _, _, _, htrue, hfalse⟩ := set_spec st hW hL k v hk
    rw [hset'] at hset
    cases hset
    cases hhas : st.has k with
    | true =>
      rw [if_pos rfl]
      exact (htrue hhas).2
    | false =>
      rw [if_neg (by simp)]
      exact (hfalse hhas).1
  · intro k
    obtain ⟨_, _, _, _, _, _, hS, _, _, _⟩ := delete_spec st hW hL k
    exact hS

/-- Witness for C3 at the concrete `sampleTable`. -/
theorem claim_C3_witness :
    CustomHashmap.WF sampleTable ∧ CustomHashmap.Lawful sampleTable ∧
    ((∀ ops : List (CustomHashmap.Op Nat), (sampleTable.applyOps ops)._size
        = ((sampleTable.applyOps ops).buckets.map List.length).sum) ∧
      (∀ (k : JSKey) (v : Nat) (st₁ : CustomHashmap Nat),
        sampleTable.set k v = some st₁ →
        st₁._size = (if sampleTable.has k then sampleTable._size
          else sampleTable._size + 1)) ∧
      (∀ k : JSKey, (sampleTable.delete k).2._size
          = (if (sampleTable.delete k).1 then sampleTable._size - 1
            else sampleTable._size)) ∧
      sampleTable.clear._size = 0 ∧
      sampleTable._size = sampleTable.entriesList.length ∧
      (sampleTable.entriesList.map Prod.fst).Nodup) :=
  ⟨sampleTable_wf, sampleTable_lawful,
    claim_C3 sampleTable sampleTable_wf sampleTable_lawful⟩

open CustomHashmap in
/-- C4: after a successful `set`, the load-factor check runs exactly when the
key was new: an overwrite leaves capacity unchanged, while a fresh insert
grows capacity to `max(MIN_CAPACITY, capacity * 2)` precisely when
`(count after insert) / capacity > loadFactor`, and `_size` reflects whether
the key was new. -/
theorem claim_C4 {V : Type} (st : CustomHashmap V) (hW : WF st) (hL : Lawful st)
    (k : JSKey) (v : V) (st₁ : CustomHashmap V) (hset : st.set k v = some st₁) :
    (st.has k = true → st₁.capacity = st.capacity) ∧
    (st.has k = false →
      st₁.capacity = (if (((st._size + 1 : Nat) : ℚ)) / (st.capacity : ℚ)
          > st.loadFactor
        then max HASHMAP_CONSTANTS.MIN_CAPACITY
          (st.capacity * HASHMAP_CONSTANTS.RESIZE_MULTIPLIER)
        else st.capacity)) ∧
    st₁._size = (if st.has k then st._size else st._size + 1) := by
  have hk : k ≠ JSKey.undef := by
    intro hEq
    rw [(set_eq_none_iff st k v).mpr hEq] at hset
    exact Option.noConfusion hset
  obtain ⟨st', hset', _, _, _, _, _, _, htrue, hfalse⟩ := set_spec st hW hL k v hk
  rw [hset'] at hset
  cases hset
  refine ⟨fun h => (htrue h).1, fun h => (hfalse h).2.2, ?_⟩
  cases hhas : st.has k with
  | true =>
    rw [if_pos rfl]
    exact (htrue hhas).2
  | false =>
    rw [if_neg (by simp)]
    exact (hfalse hhas).1

/-- Witness for C4: a fresh insert of key `"b"` into the concrete
`sampleTable`. -/
theorem claim_C4_witness :
    ∃ st₁ : CustomHashmap Nat, sampleTable.set (.str "b") 2 = some st₁ ∧
      ((sampleTable.has (.str "b") = true → st₁.capacity = sampleTable.capacity) ∧
        (sampleTable.has (.str "b") = false →
          st₁.capacity = (if (((sampleTable._size + 1 : Nat) : ℚ))
              / (sampleTable.capacity : ℚ) > sampleTable.loadFactor
            then max HASHMAP_CONSTANTS.MIN_CAPACITY
              (sampleTable.capacity * HASHMAP_CONSTANTS.RESIZE_MULTIPLIER)
            else sampleTable.capacity)) ∧
        st₁._size = (if sampleTable.has (.str "b") then sampleTable._size
          else sampleTable._size + 1)) := by
  obtain ⟨st₁, hset, _⟩ := CustomHashmap.set_spec sampleTable sampleTable_wf
    sampleTable_lawful (.str "b") 2 (by intro h; cases h)
  exact ⟨st₁, hset,
    claim_C4 sampleTable sampleTable_wf sampleTable_lawful (.str "b") 2 st₁ hset⟩

open CustomHashmap in
/-- C5: `set` fails (raises `InvalidKeyError`) exactly on the `undefined`
sentinel, and a failing `set` leaves the state completely unchanged (the
throw precedes any mutation); `get`, `has`, `delete` and `clear` are total on
every representable key including the sentinel and follow their ordinary
specifications there (the sentinel is hashable: its default hash is the
string hash of `"undefined"`). -/
theorem claim_C5 {V : Type} (st : CustomHashmap V) (hW : WF st) (hL : Lawful st)
    (k : JSKey) (v : V) :
    (st.set k v = none ↔ k = JSKey.undef) ∧
    st.applyOp (.set JSKey.undef v) = st ∧
    (st.delete JSKey.undef).1 = st.has JSKey.undef ∧
    st.clear.get JSKey.undef = none ∧
    HashUtils.defaultHash JSKey.undef = HashUtils.hashString "undefined" := by
  refine ⟨set_eq_none_iff st k v, ?_, ?_, get_clear st JSKey.undef, rfl⟩
  · simp only [applyOp, (set_eq_none_iff st JSKey.undef v).mpr rfl, Option.getD_none]
  · exact (delete_spec st hW hL JSKey.undef).1

/-- Witness for C5 at the concrete `sampleTable`. -/
theorem claim_C5_witness :
    CustomHashmap.WF sampleTable ∧ CustomHashmap.Lawful sampleTable ∧
    ((sampleTable.set (.num 5) 7 = none ↔ JSKey.num 5 = JSKey.undef) ∧
      sampleTable.applyOp (.set JSKey.undef 7) = sampleTable ∧
      (sampleTable.delete JSKey.undef).1 = sampleTable.has JSKey.undef ∧
      sampleTable.clear.get JSKey.undef = none ∧
      HashUtils.defaultHash JSKey.undef = HashUtils.hashString "undefined") :=
  ⟨sampleTable_wf, sampleTable_lawful,
    claim_C5 sampleTable sampleTable_wf sampleTable_lawful (.num 5) 7⟩

open CustomHashmap in
/-- C9: `delete` returns `true` exactly when a matching entry exists; it
never changes capacity (no resize-down); it decrements `_size` exactly on
success; keys equivalent to the deleted key no longer resolve, while every
other key — in the same chain or any other bucket — still reads its previous
value; a failed `delete` leaves the state unchanged. -/
theorem claim_C9 {V : Type} (st : CustomHashmap V) (hW : WF st) (hL : Lawful st)
    (k : JSKey) :
    (st.delete k).1 = st.has k ∧
    (st.delete k).2.capacity = st.capacity ∧
    (st.delete k).2._size = (if (st.delete k).1 then st._size - 1 else st._size) ∧
    (∀ q, st.equalsFunction k q = false → (st.delete k).2.get q = st.get q) ∧
    (∀ q, st.equalsFunction k q = true → (st.delete k).2.get q = none) ∧
    ((st.delete k).1 = false → (st.delete k).2 = st) := by
  obtain ⟨hflag, _, _, _, _, hC, hS, hmatch, hother, hfail⟩ := delete_spec st hW hL k
  exact ⟨hflag, hC, hS, hother, hmatch, hfail⟩

/-- Witness for C9: deleting key `"a"` from the concrete `sampleTable`. -/
theorem claim_C9_witness :
    CustomHashmap.WF sampleTable ∧ CustomHashmap.Lawful sampleTable ∧
    ((sampleTable.delete (.str "a")).1 = sampleTable.has (.str "a") ∧
      (sampleTable.delete (.str "a")).2.capacity = sampleTable.capacity ∧
      (sampleTable.delete (.str "a")).2._size
        = (if (sampleTable.delete (.str "a")).1 then sampleTable._size - 1
          else sampleTable._size) ∧
      (∀ q, sampleTable.equalsFunction (.str "a") q = false →
        (sampleTable.delete (.str "a")).2.get q = sampleTable.get q) ∧
      (∀ q, sampleTable.equalsFunction (.str "a") q = true →
        (sampleTable.delete (.str "a")).2.get q = none) ∧
      ((sampleTable.delete (.str "a")).1 = false →
        (sampleTable.delete (.str "a")).2 = sampleTable)) :=
  ⟨sampleTable_wf, sampleTable_lawful,
    claim_C9 sampleTable sampleTable_wf sampleTable_lawful (.str "a")⟩

open CustomHashmap in
/-- C10: `keys()`, `values()` and `entries()` traverse the live entries in
the same order (bucket-index order, then chain order) and are mutually
consistent projections: all three have length `size`, `entries()` is the
index-wise pairing of `keys()` with `values()`, and `forEach` visits exactly
the same sequence as `(value, key)` pairs. -/
theorem claim_C10 {V : Type} (st : CustomHashmap V) (hW : WF st) :
    st.keys.length = st.size ∧
    st.values.length = st.size ∧
    st.entries.length = st.size ∧
    st.entries = st.keys.zip st.values ∧
    st.forEachSeq = st.entries.map (fun p => (p.2, p.1)) := by
  have hsize : st.size = st.entriesList.length := hW.size_eq
  refine ⟨?_, ?_, ?_, ?_, ?_⟩
  · rw [keys_eq_map, List.length_map, hsize]
  · rw [values_eq_map, List.length_map, hsize]
  · rw [entries_eq_map, List.length_map, hsize]
  · rw [entries_eq_map, keys_eq_map, values_eq_map, List.zip_map']
  · rw [forEachSeq_eq_map, entries_eq_map, List.map_map]
    rfl

/-- Witness for C10 at the concrete `sampleTable`. -/
theorem claim_C10_witness :
    CustomHashmap.WF sampleTable ∧
    (sampleTable.keys.length = sampleTable.size ∧
      sampleTable.values.length = sampleTable.size ∧
      sampleTable.entries.length = sampleTable.size ∧
      sampleTable.entries = sampleTable.keys.zip sampleTable.values ∧
      sampleTable.forEachSeq = sampleTable.entries.map (fun p => (p.2, p.1))) :=
  ⟨sampleTable_wf, claim_C10 sampleTable sampleTable_wf⟩

open CustomHashmap in
/-- C1 as stated is false: `clear()` is an operation that is neither a
`set(k, _)` nor a `delete(k)`, yet it destroys the binding.  Concretely,
`set("a", 1)` on a fresh default table succeeds (the `map` result is `some`),
the single intervening operation is `clear` (not a `set` or `delete` of any
key), and the subsequent `get("a")` returns `none`, not `some 1`. -/
theorem claim_C1_counterexample :
    ((CustomHashmap.make (V := Nat) {}).set (.str "a") 1).map
        (fun st₁ => (st₁.applyOps [.clear]).get (.str "a"))
      = some none := by
  obtain ⟨st₁, hset, _⟩ := set_spec (CustomHashmap.make (V := Nat) {}) (wf_make {})
    (lawful_make_of_default_eq {} rfl) (.str "a") 1 (by intro h; cases h)
  rw [hset, Option.map_some']
  show some ((st₁.applyOp Op.clear).get (.str "a")) = some none
  show some (st₁.clear.get (.str "a")) = some none
  rw [get_clear]

open CustomHashmap in
/-- C1 (amended: additionally no `clear()` intervenes — forced by the
counterexample): for every well-formed, lawfully configured table, if
`set(k, v)` succeeds and every later operation neither sets nor deletes a key
equal to `k` (per the equality function) nor clears the table, then `get(k)`
returns `v`; moreover, when `k` was already present, the `set` overwrote in
place rather than adding an entry: `_size` and the multiset of stored keys
are unchanged. -/
theorem claim_C1 {V : Type} (st : CustomHashmap V) (hW : WF st) (hL : Lawful st)
    (k : JSKey) (v : V) (st₁ : CustomHashmap V) (hset : st.set k v = some st₁)
    (ops : List (Op V))
    (hops : ∀ op ∈ ops, NotTouching st.equalsFunction k op) :
    (st₁.applyOps ops).get k = some v ∧
    (st.has k = true → st₁._size = st._size ∧
      st₁.entriesList.map Prod.fst = st.entriesList.map Prod.fst) := by
  have hk : k ≠ JSKey.undef := by
    intro hEq
    rw [(set_eq_none_iff st k v).mpr hEq] at hset
    exact Option.noConfusion hset
  obtain ⟨st', hset', hW₁, hE, hH, hLF, hmatch, hother, htrue, hfalse⟩ :=
    set_spec st hW hL k v hk
  rw [hset'] at hset
  cases hset
  have hL₁ := lawful_of_eq_fields st st₁ hE hH hL
  constructor
  · have hget : st₁.get k = some v := hmatch k (hL.refl k)
    have hops' : ∀ op ∈ ops, NotTouching st₁.equalsFunction k op := by
      intro op hop
      rw [hE]
      exact hops op hop
    rw [get_applyOps_notTouching ops st₁ hW₁ hL₁ k hops']
    exact hget
  · intro hhas
    refine ⟨(htrue hhas).2, ?_⟩
    cases hF : st.findNodeInBucket (st.bucketIndex k) k with
    | none =>
      have : st.has k = false := by
        unfold has findNode
        rw [hF]
        rfl
      rw [this] at hhas
      exact absurd hhas (by simp)
    | some m =>
      have hov := set_eq_overwrite st k v m hk hF
      rw [hset'] at hov
      have hEq := Option.some.inj hov
      rw [hEq]
      exact overwrite_entries_map_fst st hW k v

open CustomHashmap in
/-- Witness for the amended C1: `set("a", 1)` into `sampleTable`, followed by
a `set` of a different key and a `delete` of a third key. -/
theorem claim_C1_witness :
    ∃ st₁ : CustomHashmap Nat, sampleTable.set (.str "a") 1 = some st₁ ∧
      ((st₁.applyOps [.set (.str "b") 2, .delete (.str "c")]).get (.str "a")
          = some 1 ∧
        (sampleTable.has (.str "a") = true → st₁._size = sampleTable._size ∧
          st₁.entriesList.map Prod.fst = sampleTable.entriesList.map Prod.fst)) := by
  obtain ⟨st₁, hset, _⟩ := set_spec sampleTable sampleTable_wf sampleTable_lawful
    (.str "a") 1 (by intro h; cases h)
  refine ⟨st₁, hset, claim_C1 sampleTable sampleTable_wf sampleTable_lawful
    (.str "a") 1 st₁ hset [.set (.str "b") 2, .delete (.str "c")] ?_⟩
  intro op hop
  rcases List.mem_cons.mp hop with rfl | hop2
  · show sampleTable.equalsFunction (.str "b") (.str "a") = false
    decide
  · rcases List.mem_cons.mp hop2 with rfl | hop3
    · show sampleTable.equalsFunction (.str "c") (.str "a") = false
      decide
    · exact absurd hop3 (List.not_mem_nil op)

namespace CustomHashmap

theorem has_true_of_get_some {V : Type} (st : CustomHashmap V) (k : JSKey) (v : V)
    (h : st.get k = some v) : st.has k = true := by
  unfold CustomHashmap.get at h
  unfold CustomHashmap.has
  cases hF : st.findNode k with
  | none => rw [hF] at h; cases h
  | some p => rfl

end CustomHashmap

open CustomHashmap AttachmentsService in
/-- C6: `getByPath` performs no store read on a cache hit; on a miss it
performs exactly one store read; it fails with `NotFoundError` (result
`none`) exactly when the key is absent from both the table and the store; and
on a miss served by the store it inserts the projected value so that a second
`getByPath` of the same key — against any store whatsoever — returns that
value with zero store reads and no further table change. -/
theorem claim_C6 {Ent Err Input V : Type} (store : RecordStore Ent Err Input)
    (proj : Ent → V) (st : CustomHashmap V) (hW : WF st) (hL : Lawful st)
    (key : String) :
    (st.has (.str key) = true →
      getByPath store proj st key = (st.get (.str key), st, 0)) ∧
    ((getByPath store proj st key).1 = none ↔
      (st.has (.str key) = false ∧ store.findByPath key = none)) ∧
    (st.has (.str key) = false → store.findByPath key = none →
      getByPath store proj st key = (none, st, 1)) ∧
    (∀ ent, st.has (.str key) = false → store.findByPath key = some ent →
      (getByPath store proj st key).1 = some (proj ent) ∧
      (getByPath store proj st key).2.2 = 1 ∧
      (∀ store2 : RecordStore Ent Err Input,
        getByPath store2 proj (getByPath store proj st key).2.1 key
          = (some (proj ent), (getByPath store proj st key).2.1, 0))) := by
  cases hG : st.get (.str key) with
  | some v =>
    have hhas : st.has (.str key) = true := has_true_of_get_some st _ v hG
    have hred : getByPath store proj st key = (some v, st, 0) := by
      unfold getByPath
      simp only [hG]
    refine ⟨fun _ => hred, ?_, fun h _ => absurd h (by simp [hhas]),
      fun _ h _ => absurd h (by simp [hhas])⟩
    rw [hred]
    simp [hhas]
  | none =>
    have hhas : st.has (.str key) = false := (get_none_iff_has_false st _).mp hG
    cases hS : store.findByPath key with
    | none =>
      have hred : getByPath store proj st key = (none, st, 1) := by
        unfold getByPath
        simp only [hG, hS]
      refine ⟨fun h => absurd h (by simp [hhas]), ?_, fun _ _ => hred, ?_⟩
      · rw [hred]
        simp [hhas]
      · intro ent _ hf
        cases hf
    | some ent =>
      have hkey : (JSKey.str key) ≠ JSKey.undef := by intro h; cases h
      obtain ⟨st', hset', hW', hE, hH, hLF, hmatch, _, _, _⟩ :=
        set_spec st hW hL (.str key) (proj ent) hkey
      have hred : getByPath store proj st key = (some (proj ent), st', 1) := by
        unfold getByPath
        simp only [hG, hS, hset', Option.getD_some]
      have hget2 : st'.get (.str key) = some (proj ent) := hmatch _ (hL.refl _)
      refine ⟨fun h => absurd h (by simp [hhas]), ?_, ?_, ?_⟩
      · rw [hred]
        simp
      · intro _ hf
        cases hf
      · intro ent2 _ hf
        injection hf with hf2
        subst hf2
        refine ⟨by rw [hred], by rw [hred], ?_⟩
        intro store2
        rw [hred]
        show getByPath store2 proj st' key = (some (proj ent), st', 0)
        unfold getByPath
        simp only [hget2]

open CustomHashmap AttachmentsService in
/-- C7: `registerFile` persists first; if persistence fails the table is
completely untouched and the error propagates; if it succeeds, the projected
response is returned and inserted under its canonical path, so a `getByPath`
of that path on the resulting table — against any store whatsoever — returns
it with zero store reads. -/
theorem claim_C7 {Ent Err Input V : Type} (store : RecordStore Ent Err Input)
    (proj : Ent → V) (pathOf : V → String) (st : CustomHashmap V)
    (hW : WF st) (hL : Lawful st) (file : Input) :
    (∀ e, store.create file = .error e →
      registerFile store proj pathOf st file = (.error e, st)) ∧
    (∀ saved, store.create file = .ok saved →
      (registerFile store proj pathOf st file).1 = .ok (proj saved) ∧
      (∀ store2 : RecordStore Ent Err Input,
        getByPath store2 proj (registerFile store proj pathOf st file).2
            (pathOf (proj saved))
          = (some (proj saved), (registerFile store proj pathOf st file).2, 0))) := by
  constructor
  · intro e he
    unfold registerFile
    simp only [he]
  · intro saved hs
    have hkey : (JSKey.str (pathOf (proj saved))) ≠ JSKey.undef := by
      intro h; cases h
    obtain ⟨st', hset', hW', hE, hH, hLF, hmatch, _, _, _⟩ :=
      set_spec st hW hL (.str (pathOf (proj saved))) (proj saved) hkey
    have hred : registerFile store proj pathOf st file = (.ok (proj saved), st') := by
      unfold registerFile
      simp only [hs, hset', Option.getD_some]
    have hget2 : st'.get (.str (pathOf (proj saved))) = some (proj saved) :=
      hmatch _ (hL.refl _)
    refine ⟨by rw [hred], ?_⟩
    intro store2
    rw [hred]
    show getByPath store2 proj st' (pathOf (proj saved)) = (some (proj saved), st', 0)
    unfold getByPath
    simp only [hget2]

/-- Witness for C6: a miss on `"uploads/x.txt"` served by the stub store. -/
theorem claim_C6_witness :
    CustomHashmap.WF sampleTable ∧ CustomHashmap.Lawful sampleTable ∧
    ((AttachmentsService.getByPath sampleStore id sampleTable "uploads/x.txt").1
        = some 42 ∧
      (AttachmentsService.getByPath sampleStore id sampleTable "uploads/x.txt").2.2
        = 1) := by
  refine ⟨sampleTable_wf, sampleTable_lawful, ?_⟩
  have h := (claim_C6 sampleStore id sampleTable sampleTable_wf sampleTable_lawful
    "uploads/x.txt").2.2.2 42 (by decide) (by decide)
  exact ⟨h.1, h.2.1⟩

/-- Witness for C7: a successful write registered under path `"p"`. -/
theorem claim_C7_witness :
    CustomHashmap.WF sampleTable ∧ CustomHashmap.Lawful sampleTable ∧
    ((AttachmentsService.registerFile sampleStore id (fun _ => "p") sampleTable ()).1
        = .ok 42 ∧
      ∀ store2 : AttachmentsService.RecordStore Nat Unit Unit,
        AttachmentsService.getByPath store2 id
            (AttachmentsService.registerFile sampleStore id (fun _ => "p")
              sampleTable ()).2 "p"
          = (some 42,
             (AttachmentsService.registerFile sampleStore id (fun _ => "p")
               sampleTable ()).2, 0)) := by
  refine ⟨sampleTable_wf, sampleTable_lawful, ?_⟩
  have h := (claim_C7 sampleStore id (fun _ => "p") sampleTable sampleTable_wf
    sampleTable_lawful ()).2 42 rfl
  exact ⟨h.1, h.2⟩

/-- C8: the default hash per runtime key category agrees with the spec-side
descriptions — numbers via XOR with the 16-bit right shift of the 32-bit
pattern, masked non-negative over 32 bits; strings via the 5381/33 rolling
hash truncated to 32 bits and masked non-negative; the booleans to the fixed
distinct constants 1231 and 1237; other keys via the string hash of their
serialization or of the textual fallback when serialization fails — and the
bucket index is `abs(hash | 0) mod capacity` for a custom hash function,
else the (already non-negative) default hash mod capacity. -/
theorem claim_C8 :
    (∀ num : Int, HashUtils.defaultHash (.num num) = specHashNumber num ∧
      HashUtils.defaultHash (.num num) < 2 ^ 32) ∧
    (∀ s : String, HashUtils.defaultHash (.str s) = specHashString s ∧
      HashUtils.defaultHash (.str s) < 2 ^ 32) ∧
    (HashUtils.defaultHash (.bool true) = HASHMAP_CONSTANTS.BOOLEAN_TRUE_HASH ∧
      HashUtils.defaultHash (.bool false) = HASHMAP_CONSTANTS.BOOLEAN_FALSE_HASH ∧
      HASHMAP_CONSTANTS.BOOLEAN_TRUE_HASH ≠ HASHMAP_CONSTANTS.BOOLEAN_FALSE_HASH) ∧
    (∀ (j f : String),
      HashUtils.defaultHash (.other (some j) f) = HashUtils.hashString j) ∧
    (∀ f : String,
      HashUtils.defaultHash (.other none f) = HashUtils.hashString f) ∧
    (∀ (k : JSKey) (cap : Nat) (hf : JSKey → Int),
      HashUtils.getBucketIndex k cap (some hf)
        = (HashUtils.toInt32 (hf k)).natAbs % cap) ∧
    (∀ (k : JSKey) (cap : Nat),
      HashUtils.getBucketIndex k cap none = HashUtils.defaultHash k % cap) :=
  ⟨fun num => ⟨hashNumber_eq_spec num, HashUtils.hashNumber_lt num⟩,
   fun s => ⟨hashString_eq_spec s, HashUtils.hashString_lt s⟩,
   ⟨rfl, rfl, by decide⟩,
   fun _ _ => rfl,
   fun _ => rfl,
   fun _ _ _ => rfl,
   fun _ _ => rfl⟩
